import Mathlib

/-!
Verification development for the 8-puzzle solver repository (src/solver.py).

The solver module drives four graph-search strategies (breadth-first,
uniform-cost, greedy best-first, A*) over an 8-puzzle board.  The board
type (`puzz.EightPuzzleBoard`) and the queue types (`pdqpq.FifoQueue`,
`pdqpq.PriorityQueue`) are external collaborators that are not part of the
repository's source tree; they are modelled here from the specification's
interface description (spec sections 4.1 and 6).  Everything else is a
direct shallow embedding of src/solver.py.

Conventions:
* tiles are natural numbers 0..8, with 0 denoting the blank;
* a board stores its tiles as a row-major list, `get_tile x y` reads index
  `3*y + x` (the solver only accesses the board through `find`,
  `get_tile` and `successors`, so the claims are insensitive to the
  particular index convention);
* machine integers of the Python code are modelled as `Nat` (all the
  quantities involved - costs, counters, heuristic values - are
  non-negative and far from any overflow boundary);
* the unbounded `while` loops of the Python code are modelled as
  fuel-indexed recursions returning `Option`; `none` means the fuel ran
  out (the Python loop would still be running), `some` is the value the
  Python function returns.
-/

/-- Modelled from the spec: `puzz.EightPuzzleBoard` (spec section 6), an
immutable 3x3 board built from a 9-character tile string; equality and
hashing are by tile layout.  Tiles are stored row-major as naturals. -/
structure Board where
  tiles : List Nat
deriving DecidableEq, Repr

/-- Modelled from the spec: `Board.get_tile(x, y)` returns the tile value
at a coordinate (spec section 6).  Row-major: index `3*y + x`. -/
def Board.get_tile (b : Board) (x y : Nat) : Nat :=
  b.tiles.getD (3 * y + x) 0

/-- Modelled from the spec: `Board.find(tile_or_blank)` returns the (x, y)
coordinate of a given tile value, the blank being tile 0 (spec section 6).
The solver source calls this both as `find("0")` and `find(None)`; both
locate the blank and are modelled as `find 0`. -/
def Board.find (b : Board) (t : Nat) : Nat × Nat :=
  let i := b.tiles.indexOf t
  (i % 3, i / 3)

/-- `GOAL_STATE = puzz.EightPuzzleBoard("012345678")` (src/solver.py line 6). -/
def GOAL_STATE : Board :=
  Board.mk [0, 1, 2, 3, 4, 5, 6, 7, 8]

/-- A well-formed 8-puzzle board: nine tiles, containing the blank. -/
def validBoard (b : Board) : Bool :=
  b.tiles.length = 9 && b.tiles.contains 0

/-- Swap the entries at positions `i` and `j` of a list (used to build the
successor of a board by sliding one tile into the blank). -/
def swapIdx (l : List Nat) (i j : Nat) : List Nat :=
  (l.set i (l.getD j 0)).set j (l.getD i 0)

/-- Modelled from the spec: `Board.successors()` produces a mapping from
move name ("up", "down", "left", "right") to resulting board, for all
legal slides from the current blank position (spec section 6).  The
direction geometry follows the solver's own documentation of the moves in
`_transition_cost` (src/solver.py lines 222-239): for "up" the tile below
the blank slides up, for "down" the tile above slides down, for "left"
the tile to the right slides left, for "right" the tile to the left
slides right; the bottom-left corner is (0, 0). -/
def Board.successors (b : Board) : List (String × Board) :=
  let i := b.tiles.indexOf 0
  let x := i % 3
  let y := i / 3
  (if 1 ≤ y then [("up", Board.mk (swapIdx b.tiles i (3 * (y - 1) + x)))] else []) ++
  (if y ≤ 1 then [("down", Board.mk (swapIdx b.tiles i (3 * (y + 1) + x)))] else []) ++
  (if x ≤ 1 then [("left", Board.mk (swapIdx b.tiles i (3 * y + (x + 1))))] else []) ++
  (if 1 ≤ x then [("right", Board.mk (swapIdx b.tiles i (3 * y + (x - 1))))] else [])

/-- Modelled from the spec: `Board.get_move(other)` returns the move name
transforming `b` into `other`, used only for path-reconstruction display
(spec section 6).  Undefined when the boards do not differ by one legal
slide; modelled as the string "none" there. -/
def Board.get_move (b other : Board) : String :=
  match b.successors.find? (fun ms => ms.2 == other) with
  | some ms => ms.1
  | none => "none"

/-- The cell enumeration of the heuristic loops in src/solver.py
(lines 284-315): `for x in range(0,3): for y in range(0,3)`. -/
def cells : List (Nat × Nat) :=
  [(0, 0), (0, 1), (0, 2), (1, 0), (1, 1), (1, 2), (2, 0), (2, 1), (2, 2)]

/-- `abs(a - b)` on Python ints, for natural inputs. -/
def natDist (a b : Nat) : Nat :=
  ((a : Int) - (b : Int)).natAbs

/-- `GreedySolver._num_misplaced_tiles` (src/solver.py lines 284-291). -/
def num_misplaced_tiles (state : Board) : Nat :=
  cells.foldl (fun acc c =>
    let num_tile := state.get_tile c.1 c.2
    if num_tile ≠ 0 ∧ state.get_tile c.1 c.2 ≠ GOAL_STATE.get_tile c.1 c.2 then
      acc + 1
    else acc) 0

/-- `GreedySolver._manhattan_distance` (src/solver.py lines 293-303). -/
def manhattan_distance (state : Board) : Nat :=
  cells.foldl (fun acc c =>
    let cur_tile := state.get_tile c.1 c.2
    let g := GOAL_STATE.find cur_tile
    if cur_tile ≠ 0 then acc + (natDist c.1 g.1 + natDist c.2 g.2) else acc) 0

/-- `GreedySolver._worse_manhattan` (src/solver.py lines 305-315), the h3
heuristic: every cell contributes `tile^2 * manhattan distance to the
tile's goal coordinate`, the blank included (its factor `0^2` zeroes the
term). -/
def worse_manhattan (state : Board) : Nat :=
  cells.foldl (fun acc c =>
    let cur_tile := state.get_tile c.1 c.2
    let g := GOAL_STATE.find cur_tile
    let diff := natDist c.1 g.1 + natDist c.2 g.2
    acc + cur_tile ^ 2 * diff) 0

/-- `GreedySolver._heuristic` (src/solver.py lines 273-282).  On an
unknown tag the Python function prints an error message and falls off the
end, returning `None`; this is modelled as `none`. -/
def heuristic_of (trans : Board) (heur : String) : Option Nat :=
  if heur = "h1" then some (num_misplaced_tiles trans)
  else if heur = "h2" then some (manhattan_distance trans)
  else if heur = "h3" then some (worse_manhattan trans)
  else none

/-- `UniformCostSolver._transition_cost` (src/solver.py lines 222-239):
locate the blank, inspect the neighbouring cell in the move's direction,
return the square of the tile found there.  The Python fallthrough branch
(unknown move name) prints an error and returns `None`; it is modelled as
0 and is unreachable for moves produced by `successors`. -/
def transition_cost (state : Board) (move : String) : Nat :=
  let x := (state.find 0).1
  let y := (state.find 0).2
  if move = "up" then state.get_tile x (y - 1) ^ 2
  else if move = "down" then state.get_tile x (y + 1) ^ 2
  else if move = "left" then state.get_tile (x + 1) y ^ 2
  else if move = "right" then state.get_tile (x - 1) y ^ 2
  else 0

/-- Spec-side rendering of the h3 description for claim C4: "sum over
non-blank tiles of `(tile_value)^2 x manhattan_distance(tile)`" - the
blank's cell is skipped instead of being multiplied by zero. -/
def specWorseManhattan (state : Board) : Nat :=
  cells.foldl (fun acc c =>
    let t := state.get_tile c.1 c.2
    let g := GOAL_STATE.find t
    if t ≠ 0 then acc + t ^ 2 * (natDist c.1 g.1 + natDist c.2 g.2) else acc) 0

/-! ## Parent map, path reconstruction and path cost (src/solver.py lines 130-170) -/

/-- The solver's `self.parents` dictionary (state -> parent state or
`None`), modelled as an association list. -/
abbrev Parents := List (Board × Option Board)

/-- Dictionary lookup `self.parents[state]`: `none` models a `KeyError`,
`some none` a state whose stored parent is `None` (the search root). -/
def lookupParent (ps : Parents) (b : Board) : Option (Option Board) :=
  (List.find? (fun e => e.1 == b) ps).map Prod.snd

/-- Dictionary update `self.parents[state] = v`: overwrite an existing
binding in place, or append a fresh one. -/
def setParent (ps : Parents) (k : Board) (v : Option Board) : Parents :=
  if List.any ps (fun e => e.1 == k) then
    List.map (fun e => if e.1 == k then (k, v) else e) ps
  else
    ps ++ [(k, v)]

/-- Fuel-indexed parent-chain walk underlying `get_path`'s `while` loop:
follow parent pointers from `s`, collecting the visited states (target
first).  `none` models the Python loop failing to terminate within the
given fuel or raising `KeyError` on a missing binding. -/
def walkP (ps : Parents) : Nat → Board → Option (List Board)
  | 0, _ => none
  | fuel + 1, s =>
    match lookupParent ps s with
    | none => none
    | some none => some [s]
    | some (some p) => (walkP ps fuel p).map (fun l => s :: l)

/-- The parent chain from `s` terminates cleanly at a root.  In every
state reachable by the solvers this holds with room to spare: a
terminating chain visits pairwise distinct keys of the map, so
`ps.length + 1` fuel suffices (proved below as `walkP_length_le`). -/
def chainOk (ps : Parents) (s : Board) : Bool :=
  (walkP ps (ps.length + 1) s).isSome

/-- `BreadthFirstSolver.get_path` (src/solver.py lines 130-149): retrace
the parent pointers from `state` to the root and reverse.  On inputs
where the Python loop would diverge or raise (never the case in actual
runs) the walk yields `none` and the path is modelled as `[]`. -/
def get_path (ps : Parents) (state : Board) : List Board :=
  ((walkP ps (ps.length + 1) state).getD []).reverse

/-- The accumulation loop of `BreadthFirstSolver.get_cost`
(src/solver.py lines 164-169): `for i in range(1, len(path))`, find the
blank of `path[i-1]`, read that coordinate in `path[i]`, add the square. -/
def costFold (path : List Board) : Nat :=
  (List.range' 1 (path.length - 1)).foldl
    (fun cost i =>
      let xy := (path.getD (i - 1) (Board.mk [])).find 0
      let tile := (path.getD i (Board.mk [])).get_tile xy.1 xy.2
      cost + tile ^ 2) 0

/-- `BreadthFirstSolver.get_cost` (src/solver.py lines 151-170). -/
def get_cost (ps : Parents) (state : Board) : Nat :=
  costFold (get_path ps state)

/-- Spec-side rendering for claim C2: the cost of the single edge from
`p` to `q` is "the square of the numeric value of the tile that occupies,
in `q`, the coordinate that the blank occupied in `p`". -/
def edgeCost (p q : Board) : Nat :=
  (q.get_tile (p.find 0).1 (p.find 0).2) ^ 2

/-- Spec-side rendering for claim C2: sum of `edgeCost` over consecutive
pairs of a path. -/
def pathPairCost : List Board → Nat
  | p :: q :: rest => edgeCost p q + pathPairCost (q :: rest)
  | _ => 0

/-- The result dictionary built by
`BreadthFirstSolver.get_results_dict` (src/solver.py lines 110-128).
`path_cost` and `path` are `none` exactly when the corresponding
dictionary keys are omitted. -/
structure SearchResult where
  frontier_count : Nat
  expanded_count : Nat
  path_cost : Option Nat
  path : Option (List (String × Board))
deriving DecidableEq, Repr

/-- `BreadthFirstSolver.get_results_dict` (src/solver.py lines 110-128),
shared by all four solvers.  `state = none` models the Python call
`get_results_dict(None)` on search failure. -/
def get_results_dict (ps : Parents) (fc ec : Nat) (state : Option Board) :
    SearchResult :=
  match state with
  | none => SearchResult.mk fc ec none none
  | some s =>
    let cost := get_cost ps s
    let path := get_path ps s
    let moves := "start" ::
      (List.range' 1 (path.length - 1)).map
        (fun i => (path.getD (i - 1) (Board.mk [])).get_move
          (path.getD i (Board.mk [])))
    SearchResult.mk fc ec (some cost) (some (List.zip moves path))

/-! ## Frontier queues (modelled from spec section 4.1) and the four solvers -/

/-- Modelled from the spec: `pdqpq.PriorityQueue` (spec section 4.1), a
min-priority queue keyed by state.  Entries are (state, priority) pairs in
insertion order; `pop` removes the leftmost entry of minimum priority
(the spec fixes only "minimum priority", tie-breaking is the model's
choice). -/
abbrev PQueue := List (Board × Nat)

/-- `PriorityQueue.add(state, priority)`; the parameterless
`add(state)` of `BreadthFirstSolver.add_to_frontier` uses the default
priority 0. -/
def pqAdd (q : PQueue) (b : Board) (p : Nat) : PQueue :=
  q ++ [(b, p)]

/-- `state in frontier` membership test. -/
def pqContains (q : PQueue) (b : Board) : Bool :=
  List.any q (fun e => e.1 == b)

/-- `PriorityQueue.get(state)`: the stored priority of a state present in
the queue (`KeyNotFoundError` otherwise; modelled as 0, never hit by the
solvers, which test membership first). -/
def pqGet (q : PQueue) (b : Board) : Nat :=
  ((List.find? (fun e => e.1 == b) q).map Prod.snd).getD 0

/-- `PriorityQueue.remove(state)`: delete the entries stored under a
state. -/
def pqRemove (q : PQueue) (b : Board) : PQueue :=
  List.filter (fun e => !(e.1 == b)) q

/-- `PriorityQueue.pop()`: remove and return the leftmost
minimum-priority entry together with the remaining queue; `none` on an
empty queue (`EmptyFrontierError`). -/
def pqPop : PQueue → Option ((Board × Nat) × PQueue)
  | [] => none
  | e :: rest =>
    match pqPop rest with
    | none => some (e, [])
    | some (m, rest') =>
      if e.2 ≤ m.2 then some (e, rest) else some (m, e :: rest')

/-- The states currently stored in a priority queue. -/
def pqStates (q : PQueue) : List Board :=
  List.map Prod.fst q

/-- Python `set.add`: insert a state into the explored set (kept as a
duplicate-free list). -/
def insertSet (l : List Board) (b : Board) : List Board :=
  if b ∈ l then l else l ++ [b]

/-- The mutable attributes shared by `BreadthFirstSolver` (src/solver.py
lines 57-63): parent map, FIFO frontier, explored set and the two
counters. -/
structure BfsSolver where
  parents : Parents
  frontier : List Board
  explored : List Board
  frontier_count : Nat
  expanded_count : Nat
deriving DecidableEq, Repr

/-- The same attributes for the priority-queue based solvers
(`UniformCostSolver`, `GreedySolver`, `AStarSolver`). -/
structure PqSolver where
  parents : Parents
  frontier : PQueue
  explored : List Board
  frontier_count : Nat
  expanded_count : Nat
deriving DecidableEq, Repr

/-- `BreadthFirstSolver.add_to_frontier` (src/solver.py lines 99-102):
add to the FIFO frontier and increment `frontier_count`. -/
def addToFrontier (st : BfsSolver) (node : Board) : BfsSolver :=
  BfsSolver.mk st.parents (st.frontier ++ [node]) st.explored
    (st.frontier_count + 1) st.expanded_count

/-- The successor loop of `BreadthFirstSolver.solve` (src/solver.py lines
86-94): each generated successor that is in neither the frontier nor the
explored set gets its parent bound to `node` and is tested against the
goal before being added to the frontier; finding the goal returns
immediately.  The returned pair is (solver state, some goal) on success
and (solver state, none) when the whole successor list was processed. -/
def bfsProcess (st : BfsSolver) (node : Board) :
    List (String × Board) → BfsSolver × Option Board
  | [] => (st, none)
  | ms :: rest =>
    let succ := ms.2
    if succ ∉ st.frontier ∧ succ ∉ st.explored then
      let st1 := BfsSolver.mk (setParent st.parents succ (some node))
        st.frontier st.explored st.frontier_count st.expanded_count
      if succ = GOAL_STATE then (st1, some succ)
      else bfsProcess (addToFrontier st1 succ) node rest
    else bfsProcess st node rest

/-- The `while` loop of `BreadthFirstSolver.solve` (src/solver.py lines
82-97): pop the FIFO head, expand it (`expand_node`, lines 104-108: mark
explored, bump `expanded_count`, generate successors) and process the
successors.  Returns the final solver state paired with `some goal` on
success, `none` on frontier exhaustion; the outer `none` is fuel
exhaustion of the model. -/
def bfsLoop : Nat → BfsSolver → Option (BfsSolver × Option Board)
  | 0, _ => none
  | fuel + 1, st =>
    match st.frontier with
    | [] => some (st, none)
    | node :: rest =>
      let st1 := BfsSolver.mk st.parents rest (insertSet st.explored node)
        st.frontier_count (st.expanded_count + 1)
      match bfsProcess st1 node node.successors with
      | (st2, some g) => some (st2, some g)
      | (st2, none) => bfsLoop fuel st2

/-- The initial solver state at the top of every `solve`: bind the start
state's parent to `None` and add it to the frontier (FIFO form). -/
def bfsInit (start : Board) : BfsSolver :=
  BfsSolver.mk (setParent [] start none) [start] [] 1 0

/-- `BreadthFirstSolver.solve` (src/solver.py lines 65-97). -/
def bfsSolve (fuel : Nat) (start : Board) : Option SearchResult :=
  let st0 := bfsInit start
  if start = GOAL_STATE then
    some (get_results_dict st0.parents st0.frontier_count st0.expanded_count
      (some start))
  else
    match bfsLoop fuel st0 with
    | none => none
    | some (st, r) =>
      some (get_results_dict st.parents st.frontier_count st.expanded_count r)

/-- One successor of the `for` loop of `UniformCostSolver.solve`
(src/solver.py lines 194-217): compute the alternative path cost through
`node`; skip explored successors; for a frontier successor with a
strictly worse stored priority rebind its parent, remove it and re-add it
at `get_cost(succ)`; for a first discovery bind its parent, increment
`frontier_count` and add it at `get_cost(succ)`. -/
def ucsStep (st : PqSolver) (node : Board) (ms : String × Board) : PqSolver :=
  let move := ms.1
  let succ := ms.2
  let alt_cost := get_cost st.parents node + transition_cost node move
  if succ ∈ st.explored then st
  else
    if pqContains st.frontier succ then
      if pqGet st.frontier succ > alt_cost then
        let ps' := setParent st.parents succ (some node)
        PqSolver.mk ps' (pqAdd (pqRemove st.frontier succ) succ (get_cost ps' succ))
          st.explored st.frontier_count st.expanded_count
      else st
    else
      let ps' := setParent st.parents succ (some node)
      PqSolver.mk ps' (pqAdd st.frontier succ (get_cost ps' succ))
        st.explored (st.frontier_count + 1) st.expanded_count

/-- The full successor loop of `UniformCostSolver.solve`. -/
def ucsProcess (st : PqSolver) (node : Board) :
    List (String × Board) → PqSolver
  | [] => st
  | ms :: rest => ucsProcess (ucsStep st node ms) node rest

/-- The `while` loop of `UniformCostSolver.solve` (src/solver.py lines
185-217): pop the minimum-priority node, expand it (explored set and
`expanded_count` grow first), then test it against the goal, then process
its successors. -/
def ucsLoop : Nat → PqSolver → Option (PqSolver × Option Board)
  | 0, _ => none
  | fuel + 1, st =>
    match pqPop st.frontier with
    | none => some (st, none)
    | some (e, q') =>
      let node := e.1
      let st1 := PqSolver.mk st.parents q' (insertSet st.explored node)
        st.frontier_count (st.expanded_count + 1)
      if node = GOAL_STATE then some (st1, some node)
      else ucsLoop fuel (ucsProcess st1 node node.successors)

/-- The initial solver state of the priority-queue solvers: the inherited
`add_to_frontier` calls `PriorityQueue.add` with the default priority. -/
def pqInit (start : Board) : PqSolver :=
  PqSolver.mk (setParent [] start none) (pqAdd [] start 0) [] 1 0

/-- `UniformCostSolver.solve` (src/solver.py lines 178-220). -/
def ucsSolve (fuel : Nat) (start : Board) : Option SearchResult :=
  let st0 := pqInit start
  if start = GOAL_STATE then
    some (get_results_dict st0.parents st0.frontier_count st0.expanded_count
      (some start))
  else
    match ucsLoop fuel st0 with
    | none => none
    | some (st, r) =>
      some (get_results_dict st.parents st.frontier_count st.expanded_count r)

/-- One successor of the `for` loop of `GreedySolver.solve`
(src/solver.py lines 263-269): only a successor in neither the frontier
nor the explored set is processed - parent bound, `frontier_count`
incremented, added at priority `heuristic(succ)`.  An unknown heuristic
tag makes the Python code push a `None` priority into the queue, whose
later behaviour the queue contract leaves undefined; modelled as `none`. -/
def greedyStep (heur : String) (st : PqSolver) (node : Board)
    (ms : String × Board) : Option PqSolver :=
  let succ := ms.2
  if succ ∉ pqStates st.frontier ∧ succ ∉ st.explored then
    match heuristic_of succ heur with
    | none => none
    | some h =>
      some (PqSolver.mk (setParent st.parents succ (some node))
        (pqAdd st.frontier succ h) st.explored
        (st.frontier_count + 1) st.expanded_count)
  else some st

/-- The full successor loop of `GreedySolver.solve`. -/
def greedyProcess (heur : String) (st : PqSolver) (node : Board) :
    List (String × Board) → Option PqSolver
  | [] => some st
  | ms :: rest =>
    match greedyStep heur st node ms with
    | none => none
    | some st' => greedyProcess heur st' node rest

/-- The `while` loop of `GreedySolver.solve` (src/solver.py lines
254-269): same pop/expand/goal-test shape as uniform cost. -/
def greedyLoop (heur : String) : Nat → PqSolver → Option (PqSolver × Option Board)
  | 0, _ => none
  | fuel + 1, st =>
    match pqPop st.frontier with
    | none => some (st, none)
    | some (e, q') =>
      let node := e.1
      let st1 := PqSolver.mk st.parents q' (insertSet st.explored node)
        st.frontier_count (st.expanded_count + 1)
      if node = GOAL_STATE then some (st1, some node)
      else
        match greedyProcess heur st1 node node.successors with
        | none => none
        | some st2 => greedyLoop heur fuel st2

/-- `GreedySolver.solve` (src/solver.py lines 247-271). -/
def greedySolve (fuel : Nat) (start : Board) (heur : String) :
    Option SearchResult :=
  let st0 := pqInit start
  if start = GOAL_STATE then
    some (get_results_dict st0.parents st0.frontier_count st0.expanded_count
      (some start))
  else
    match greedyLoop heur fuel st0 with
    | none => none
    | some (st, r) =>
      some (get_results_dict st.parents st.frontier_count st.expanded_count r)

/-- One successor of the `for` loop of `AStarSolver.solve` (src/solver.py
lines 338-365): skip explored successors; for a frontier successor
compare `get_cost(node) + heuristic(succ) + transition_cost(node, move)`
with the stored priority and on strict improvement rebind the parent and
re-add at the new priority; for a first discovery bind the parent and add
at `get_cost(succ) + heuristic(succ)`, incrementing `frontier_count`. -/
def astarStep (heur : String) (st : PqSolver) (node : Board)
    (ms : String × Board) : Option PqSolver :=
  let move := ms.1
  let succ := ms.2
  if succ ∉ st.explored then
    if pqContains st.frontier succ then
      match heuristic_of succ heur with
      | none => none
      | some sh =>
        let alt_priority := get_cost st.parents node + sh + transition_cost node move
        if alt_priority < pqGet st.frontier succ then
          some (PqSolver.mk (setParent st.parents succ (some node))
            (pqAdd (pqRemove st.frontier succ) succ alt_priority)
            st.explored st.frontier_count st.expanded_count)
        else some st
    else
      let ps' := setParent st.parents succ (some node)
      let cost_to_succ := get_cost ps' succ
      match heuristic_of succ heur with
      | none => none
      | some sh =>
        some (PqSolver.mk ps' (pqAdd st.frontier succ (cost_to_succ + sh))
          st.explored (st.frontier_count + 1) st.expanded_count)
  else some st

/-- The full successor loop of `AStarSolver.solve`. -/
def astarProcess (heur : String) (st : PqSolver) (node : Board) :
    List (String × Board) → Option PqSolver
  | [] => some st
  | ms :: rest =>
    match astarStep heur st node ms with
    | none => none
    | some st' => astarProcess heur st' node rest

/-- The `while` loop of `AStarSolver.solve` (src/solver.py lines
330-365): pop, expand (explored set and `expanded_count` first), goal
test, then successor processing. -/
def astarLoop (heur : String) : Nat → PqSolver → Option (PqSolver × Option Board)
  | 0, _ => none
  | fuel + 1, st =>
    match pqPop st.frontier with
    | none => some (st, none)
    | some (e, q') =>
      let node := e.1
      let st1 := PqSolver.mk st.parents q' (insertSet st.explored node)
        st.frontier_count (st.expanded_count + 1)
      if node = GOAL_STATE then some (st1, some node)
      else
        match astarProcess heur st1 node node.successors with
        | none => none
        | some st2 => astarLoop heur fuel st2

/-- `AStarSolver.solve` (src/solver.py lines 323-367). -/
def astarSolve (fuel : Nat) (start : Board) (heur : String) :
    Option SearchResult :=
  let st0 := pqInit start
  if start = GOAL_STATE then
    some (get_results_dict st0.parents st0.frontier_count st0.expanded_count
      (some start))
  else
    match astarLoop heur fuel st0 with
    | none => none
    | some (st, r) =>
      some (get_results_dict st.parents st.frontier_count st.expanded_count r)

/-- Split a character list at the first dash (the `flavor.split('-')`
of src/solver.py line 38): returns the prefix and, when a dash was
found, the remainder. -/
def splitDash : List Char → List Char × Option (List Char)
  | [] => ([], none)
  | c :: rest =>
    if c = '-' then ([], some rest)
    else
      let p := splitDash rest
      (c :: p.1, p.2)

/-- The flavor-string parsing of `solve_puzzle` (src/solver.py lines
37-40): split on a dash into strategy and optional heuristic tag.  A
flavor with two or more dashes makes the Python tuple unpacking raise;
modelled as an error value. -/
def parseFlavor (flavor : String) : Except String (String × Option String) :=
  let p := splitDash flavor.data
  match p.2 with
  | none => Except.ok (String.mk p.1, none)
  | some rest =>
    if rest.contains '-' then Except.error "malformed flavor"
    else Except.ok (String.mk p.1, some (String.mk rest))

/-- `solve_puzzle` (src/solver.py lines 9-51): dispatch on the strategy
tag and run the corresponding solver; only an unknown strategy tag raises
(`ValueError`, modelled as `Except.error`).  The heuristic tag is passed
through unvalidated (a missing tag reaches `_heuristic` as Python `None`,
which matches no valid tag; modelled as the empty string). -/
def solve_puzzle (fuel : Nat) (start : Board) (flavor : String) :
    Except String (Option SearchResult) :=
  match parseFlavor flavor with
  | Except.error e => Except.error e
  | Except.ok (strat, heur) =>
    if strat = "bfs" then Except.ok (bfsSolve fuel start)
    else if strat = "ucost" then Except.ok (ucsSolve fuel start)
    else if strat = "greedy" then Except.ok (greedySolve fuel start (heur.getD ""))
    else if strat = "astar" then Except.ok (astarSolve fuel start (heur.getD ""))
    else Except.error ("Unknown search flavor " ++ flavor)

/-! ## Invariants and concrete boards used in the theorems below -/

/-- Bookkeeping invariant of the breadth-first solver state: the frontier
and explored set are duplicate-free and disjoint, `expanded_count` counts
the explored states and `frontier_count` counts the states ever added to
the frontier.  Because a state leaves the frontier only by moving into the
explored set, and is only ever added when it is in neither, the states
ever added are exactly `explored ++ frontier`. -/
def InvB (st : BfsSolver) : Prop :=
  st.frontier.Nodup ∧ st.explored.Nodup ∧
  (∀ b ∈ st.frontier, b ∉ st.explored) ∧
  st.frontier_count = st.explored.length + st.frontier.length ∧
  st.expanded_count = st.explored.length

/-- The same bookkeeping invariant for the priority-queue solvers. -/
def InvP (st : PqSolver) : Prop :=
  (pqStates st.frontier).Nodup ∧ st.explored.Nodup ∧
  (∀ b ∈ pqStates st.frontier, b ∉ st.explored) ∧
  st.frontier_count = st.explored.length + st.frontier.length ∧
  st.expanded_count = st.explored.length

/-- A board one move away from the goal: sliding tile 1 right yields
`GOAL_STATE`. -/
def boardA : Board := Board.mk [1, 0, 2, 3, 4, 5, 6, 7, 8]

/-- A successor of the goal state (tile 3 slid down from the goal):
fresh in the concrete A* run used below. -/
def boardD : Board := Board.mk [3, 1, 2, 0, 4, 5, 6, 7, 8]

/-- A degenerate board whose only successors are itself; its search space
is exhausted after one expansion, giving a concrete frontier-exhaustion
run. -/
def loopBoard : Board := Board.mk []

/-! ## Basic list lemmas -/

theorem getD_set_self (l : List Nat) (i v d : Nat) (h : i < l.length) :
    (l.set i v).getD i d = v := by
  simp [List.getD_eq_getElem?_getD, List.getElem?_set_self', List.getElem?_eq_getElem h]

theorem getD_set_ne (l : List Nat) (i j v d : Nat) (h : i ≠ j) :
    (l.set j v).getD i d = l.getD i d := by
  simp [List.getD_eq_getElem?_getD, List.getElem?_set_ne (Ne.symm h)]

theorem swapIdx_getD_fst (l : List Nat) (i j : Nat) (hi : i < l.length)
    (hij : i ≠ j) : (swapIdx l i j).getD i 0 = l.getD j 0 := by
  unfold swapIdx
  rw [getD_set_ne _ _ _ _ _ hij]
  exact getD_set_self _ _ _ _ (by simpa using hi)

/-! ## Claims C4 and C5: the h3 heuristic and the transition cost -/

/-- C4: for every board state, `_worse_manhattan` (the h3 heuristic)
returns the sum over the non-blank tiles of `(tile_value)^2` times the
Manhattan distance of the tile from its goal coordinate; the blank's cell
contributes exactly zero (its term carries the factor `0^2 = 0`), so the
source's nine-cell loop equals the spec's sum over non-blank tiles. -/
theorem claim_C4_worse_manhattan (state : Board) :
    worse_manhattan state = specWorseManhattan state := by
  unfold worse_manhattan specWorseManhattan
  apply List.foldl_ext
  intro a c _
  by_cases h : state.get_tile c.1 c.2 = 0
  · simp [h]
  · simp [h]

/-- For a successor generated by a legal move, `transition_cost` reads
off exactly the tile that slides into the blank's position: it equals the
per-edge cost `edgeCost` that `get_cost` assigns to the edge. -/
theorem transition_cost_eq_edgeCost (state : Board) (move : String)
    (succ : Board) (hv : validBoard state = true)
    (hmem : (move, succ) ∈ state.successors) :
    transition_cost state move = edgeCost state succ := by
  have hv' : state.tiles.length = 9 ∧ (0 : Nat) ∈ state.tiles := by
    simpa [validBoard] using hv
  obtain ⟨hlen, h0⟩ := hv'
  have hi : state.tiles.indexOf 0 < 9 := by
    have h2 := List.indexOf_lt_length.mpr h0
    omega
  simp only [Board.successors, List.mem_append] at hmem
  rcases hmem with ((h | h) | h) | h
  · by_cases hc : 1 ≤ state.tiles.indexOf 0 / 3
    · rw [if_pos hc] at h
      simp only [List.mem_singleton, Prod.mk.injEq] at h
      obtain ⟨hm, hs⟩ := h
      subst hm; subst hs
      show state.tiles.getD
          (3 * (state.tiles.indexOf 0 / 3 - 1) + state.tiles.indexOf 0 % 3) 0 ^ 2
        = (swapIdx state.tiles (state.tiles.indexOf 0)
            (3 * (state.tiles.indexOf 0 / 3 - 1) + state.tiles.indexOf 0 % 3)).getD
          (3 * (state.tiles.indexOf 0 / 3) + state.tiles.indexOf 0 % 3) 0 ^ 2
      have heq : 3 * (state.tiles.indexOf 0 / 3) + state.tiles.indexOf 0 % 3
          = state.tiles.indexOf 0 := by omega
      rw [heq, swapIdx_getD_fst _ _ _ (by omega) (by omega)]
    · rw [if_neg hc] at h
      exact absurd h (List.not_mem_nil _)
  · by_cases hc : state.tiles.indexOf 0 / 3 ≤ 1
    · rw [if_pos hc] at h
      simp only [List.mem_singleton, Prod.mk.injEq] at h
      obtain ⟨hm, hs⟩ := h
      subst hm; subst hs
      show state.tiles.getD
          (3 * (state.tiles.indexOf 0 / 3 + 1) + state.tiles.indexOf 0 % 3) 0 ^ 2
        = (swapIdx state.tiles (state.tiles.indexOf 0)
            (3 * (state.tiles.indexOf 0 / 3 + 1) + state.tiles.indexOf 0 % 3)).getD
          (3 * (state.tiles.indexOf 0 / 3) + state.tiles.indexOf 0 % 3) 0 ^ 2
      have heq : 3 * (state.tiles.indexOf 0 / 3) + state.tiles.indexOf 0 % 3
          = state.tiles.indexOf 0 := by omega
      rw [heq, swapIdx_getD_fst _ _ _ (by omega) (by omega)]
    · rw [if_neg hc] at h
      exact absurd h (List.not_mem_nil _)
  · by_cases hc : state.tiles.indexOf 0 % 3 ≤ 1
    · rw [if_pos hc] at h
      simp only [List.mem_singleton, Prod.mk.injEq] at h
      obtain ⟨hm, hs⟩ := h
      subst hm; subst hs
      show state.tiles.getD
          (3 * (state.tiles.indexOf 0 / 3) + (state.tiles.indexOf 0 % 3 + 1)) 0 ^ 2
        = (swapIdx state.tiles (state.tiles.indexOf 0)
            (3 * (state.tiles.indexOf 0 / 3) + (state.tiles.indexOf 0 % 3 + 1))).getD
          (3 * (state.tiles.indexOf 0 / 3) + state.tiles.indexOf 0 % 3) 0 ^ 2
      have heq : 3 * (state.tiles.indexOf 0 / 3) + state.tiles.indexOf 0 % 3
          = state.tiles.indexOf 0 := by omega
      rw [heq, swapIdx_getD_fst _ _ _ (by omega) (by omega)]
    · rw [if_neg hc] at h
      exact absurd h (List.not_mem_nil _)
  · by_cases hc : 1 ≤ state.tiles.indexOf 0 % 3
    · rw [if_pos hc] at h
      simp only [List.mem_singleton, Prod.mk.injEq] at h
      obtain ⟨hm, hs⟩ := h
      subst hm; subst hs
      show state.tiles.getD
          (3 * (state.tiles.indexOf 0 / 3) + (state.tiles.indexOf 0 % 3 - 1)) 0 ^ 2
        = (swapIdx state.tiles (state.tiles.indexOf 0)
            (3 * (state.tiles.indexOf 0 / 3) + (state.tiles.indexOf 0 % 3 - 1))).getD
          (3 * (state.tiles.indexOf 0 / 3) + state.tiles.indexOf 0 % 3) 0 ^ 2
      have heq : 3 * (state.tiles.indexOf 0 / 3) + state.tiles.indexOf 0 % 3
          = state.tiles.indexOf 0 := by omega
      rw [heq, swapIdx_getD_fst _ _ _ (by omega) (by omega)]
    · rw [if_neg hc] at h
      exact absurd h (List.not_mem_nil _)

/-- C5: for every well-formed state and every legal move (one produced by
`successors`), `_transition_cost(state, move)` locates the blank,
inspects the neighbouring cell in the move's direction, and returns the
square of the tile found there, which is exactly the tile that slides
into the blank's position: it equals the per-edge cost (`edgeCost`) that
`get_cost` assigns to the edge from `state` to the successor produced by
that move (claim C2's theorem shows `get_cost` sums `edgeCost` over
consecutive path pairs). -/
theorem claim_C5_transition_cost (state : Board) (move : String)
    (succ : Board) (hv : validBoard state = true)
    (hmem : (move, succ) ∈ state.successors) :
    transition_cost state move = edgeCost state succ :=
  transition_cost_eq_edgeCost state move succ hv hmem

/-- Witness for C5 at a concrete input: on `boardA`, the move "right"
produces the goal state and the transition cost equals the edge cost. -/
theorem claim_C5_witness :
    validBoard boardA = true ∧ ("right", GOAL_STATE) ∈ boardA.successors ∧
    transition_cost boardA "right" = edgeCost boardA GOAL_STATE :=
  ⟨by decide, by decide,
    claim_C5_transition_cost boardA "right" GOAL_STATE (by decide) (by decide)⟩

/-! ## Claim C2: `get_cost` sums the squares of the moved tiles -/

theorem costFold_body (l : List Board) :
    costFold l = (List.range' 1 (l.length - 1)).foldl
      (fun cost i => cost + edgeCost (l.getD (i - 1) (Board.mk []))
        (l.getD i (Board.mk []))) 0 := rfl

theorem edgeFold_acc (L : List Board) : ∀ (rng : List Nat) (a : Nat),
    rng.foldl (fun cost i => cost + edgeCost (L.getD (i - 1) (Board.mk []))
      (L.getD i (Board.mk []))) a
    = a + rng.foldl (fun cost i => cost + edgeCost (L.getD (i - 1) (Board.mk []))
      (L.getD i (Board.mk []))) 0 := by
  intro rng
  induction rng with
  | nil => intro a; simp
  | cons p t ih =>
    intro a
    simp only [List.foldl_cons]
    rw [ih (a + _), ih (0 + _)]
    omega

theorem edgeFold_shift (x : Board) (l : List Board) (n : Nat) :
    ∀ (k a : Nat),
    (List.range' (k + 2) n).foldl
      (fun cost i => cost + edgeCost ((x :: l).getD (i - 1) (Board.mk []))
        ((x :: l).getD i (Board.mk []))) a
    = (List.range' (k + 1) n).foldl
      (fun cost i => cost + edgeCost (l.getD (i - 1) (Board.mk []))
        (l.getD i (Board.mk []))) a := by
  induction n with
  | zero => intro k a; rfl
  | succ m ih =>
    intro k a
    rw [List.range'_succ, List.range'_succ]
    simp only [List.foldl_cons]
    have h1 : (x :: l).getD (k + 2 - 1) (Board.mk []) = l.getD (k + 1 - 1) (Board.mk []) := by
      have e1 : k + 2 - 1 = (k + 1 - 1) + 1 := by omega
      rw [e1, List.getD_cons_succ]
    have h2 : (x :: l).getD (k + 2) (Board.mk []) = l.getD (k + 1) (Board.mk []) := by
      have e2 : k + 2 = (k + 1) + 1 := by omega
      rw [e2, List.getD_cons_succ]
    rw [h1, h2]
    exact ih (k + 1) _

/-- The index-based accumulation loop of `get_cost` computes exactly the
sum of `edgeCost` over consecutive pairs of the path. -/
theorem costFold_eq_pathPairCost (l : List Board) :
    costFold l = pathPairCost l := by
  induction l with
  | nil => rfl
  | cons x t ih =>
    cases t with
    | nil => rfl
    | cons y r =>
      rw [costFold_body]
      have hlen : (x :: y :: r).length - 1 = r.length + 1 := by simp
      rw [hlen, List.range'_succ]
      simp only [List.foldl_cons]
      have hacc : (0 : Nat) + edgeCost ((x :: y :: r).getD (1 - 1) (Board.mk []))
          ((x :: y :: r).getD 1 (Board.mk [])) = edgeCost x y := by
        simp [List.getD_cons_zero, List.getD_cons_succ]
      rw [hacc, edgeFold_acc, edgeFold_shift x (y :: r) r.length 0]
      have hr : (List.range' 1 r.length).foldl
          (fun cost i => cost + edgeCost ((y :: r).getD (i - 1) (Board.mk []))
            ((y :: r).getD i (Board.mk []))) 0 = pathPairCost (y :: r) := by
        rw [← ih, costFold_body]
        simp
      rw [hr]
      rfl

/-- C2: for every state `s` present in the parent map, `get_cost(s)`
equals the sum, over consecutive pairs (P, Q) of the reconstructed path
`get_path(s)` from the start state to `s`, of the square of the numeric
value of the tile that occupies, in Q, the coordinate that the blank
occupied in P (`edgeCost P Q` - the label of the tile that moved, never
the blank's label, which contributes only through `find 0` on P). -/
theorem claim_C2_get_cost (ps : Parents) (s : Board)
    (hmem : (lookupParent ps s).isSome = true) :
    get_cost ps s = pathPairCost (get_path ps s) :=
  costFold_eq_pathPairCost (get_path ps s)

/-- Witness for C2 at a concrete input: the two-entry parent map of a
one-move search, evaluated at the goal state. -/
theorem claim_C2_witness :
    (lookupParent (setParent (setParent [] boardA none) GOAL_STATE (some boardA))
      GOAL_STATE).isSome = true ∧
    get_cost (setParent (setParent [] boardA none) GOAL_STATE (some boardA))
        GOAL_STATE
      = pathPairCost (get_path
        (setParent (setParent [] boardA none) GOAL_STATE (some boardA)) GOAL_STATE) :=
  ⟨by decide, claim_C2_get_cost _ _ (by decide)⟩

theorem find?_map_overwrite (k : Board) (v : Option Board) :
    ∀ (ps : Parents), List.any ps (fun e => e.1 == k) = true →
    List.find? (fun e => e.1 == k)
      (List.map (fun e => if e.1 == k then (k, v) else e) ps) = some (k, v) := by
  intro ps
  induction ps with
  | nil => intro h; simp at h
  | cons e t ih =>
    intro h
    rw [List.map_cons]
    by_cases he : e.1 = k
    · rw [if_pos (by simp [he]), List.find?_cons_of_pos _ (by simp)]
    · rw [if_neg (by simp [he]), List.find?_cons_of_neg _ (by simp [he])]
      apply ih
      simpa [he] using h

theorem find?_map_preserve (k b : Board) (v : Option Board) (hne : b ≠ k) :
    ∀ (ps : Parents),
    List.find? (fun e => e.1 == b)
      (List.map (fun e => if e.1 == k then (k, v) else e) ps)
    = List.find? (fun e => e.1 == b) ps := by
  intro ps
  induction ps with
  | nil => rfl
  | cons e t ih =>
    rw [List.map_cons]
    by_cases he : e.1 = k
    · rw [if_pos (by simp [he]),
        List.find?_cons_of_neg _ (by simp [Ne.symm hne]),
        List.find?_cons_of_neg _ (by simp [he, Ne.symm hne])]
      exact ih
    · rw [if_neg (by simp [he])]
      by_cases hb : e.1 = b
      · rw [List.find?_cons_of_pos _ (by simp [hb]),
          List.find?_cons_of_pos _ (by simp [hb])]
      · rw [List.find?_cons_of_neg _ (by simp [hb]),
          List.find?_cons_of_neg _ (by simp [hb])]
        exact ih

theorem lookupParent_setParent_self (ps : Parents) (k : Board) (v : Option Board) :
    lookupParent (setParent ps k v) k = some v := by
  unfold setParent lookupParent
  by_cases ha : List.any ps (fun e => e.1 == k) = true
  · rw [if_pos ha, find?_map_overwrite k v ps ha]
    rfl
  · rw [if_neg ha, List.find?_append]
    have hnone : List.find? (fun e => e.1 == k) ps = none := by
      rw [List.find?_eq_none]
      intro x hx hbeq
      exact ha (List.any_eq_true.mpr ⟨x, hx, hbeq⟩)
    rw [hnone]
    simp

theorem lookupParent_setParent_ne (ps : Parents) (k b : Board) (v : Option Board)
    (hne : b ≠ k) : lookupParent (setParent ps k v) b = lookupParent ps b := by
  unfold setParent lookupParent
  by_cases ha : List.any ps (fun e => e.1 == k) = true
  · rw [if_pos ha, find?_map_preserve k b v hne]
  · rw [if_neg ha, List.find?_append]
    have h1 : List.find? (fun e => e.1 == b) [(k, v)] = none := by
      rw [List.find?_eq_none]
      intro x hx
      simp only [List.mem_singleton] at hx
      subst hx
      simp [Ne.symm hne]
    rw [h1]
    cases List.find? (fun e => e.1 == b) ps <;> rfl

theorem setParent_length_ge (ps : Parents) (k : Board) (v : Option Board) :
    ps.length ≤ (setParent ps k v).length := by
  unfold setParent
  by_cases ha : List.any ps (fun e => e.1 == k) = true
  · rw [if_pos ha, List.length_map]
  · rw [if_neg ha, List.length_append]
    omega

theorem walkP_det (ps : Parents) : ∀ (f : Nat) (s : Board) (L : List Board),
    walkP ps f s = some L →
    ∀ (f' : Nat) (L' : List Board), walkP ps f' s = some L' → L = L' := by
  intro f
  induction f with
  | zero => intro s L h; exact absurd h (by simp [walkP])
  | succ g ih =>
    intro s L h f' L' h'
    cases f' with
    | zero => exact absurd h' (by simp [walkP])
    | succ g' =>
      simp only [walkP] at h h'
      cases hl : lookupParent ps s with
      | none => rw [hl] at h; exact absurd h (by simp)
      | some o =>
        cases o with
        | none =>
          rw [hl] at h h'
          simp only [Option.some.injEq] at h h'
          rw [← h, ← h']
        | some p =>
          rw [hl] at h h'
          simp only [Option.map_eq_some'] at h h'
          obtain ⟨M, hw, hL⟩ := h
          obtain ⟨M', hw', hL'⟩ := h'
          rw [← hL, ← hL', ih p M hw g' M' hw']

theorem walkP_fuel (ps : Parents) : ∀ (f : Nat) (s : Board) (L : List Board),
    walkP ps f s = some L → ∀ (f' : Nat), L.length ≤ f' → walkP ps f' s = some L := by
  intro f
  induction f with
  | zero => intro s L h; exact absurd h (by simp [walkP])
  | succ g ih =>
    intro s L h f' hf'
    simp only [walkP] at h
    cases hl : lookupParent ps s with
    | none => rw [hl] at h; exact absurd h (by simp)
    | some o =>
      cases o with
      | none =>
        rw [hl] at h
        simp only [Option.some.injEq] at h
        subst h
        cases f' with
        | zero => simp at hf'
        | succ g' => simp only [walkP, hl]
      | some p =>
        rw [hl] at h
        simp only [Option.map_eq_some'] at h
        obtain ⟨M, hw, hL⟩ := h
        subst hL
        cases f' with
        | zero => simp at hf'
        | succ g' =>
          simp only [walkP, hl]
          rw [ih p M hw g' (by simpa using hf')]
          rfl

theorem walkP_head (ps : Parents) (f : Nat) (s : Board) (L : List Board)
    (h : walkP ps f s = some L) : ∃ T, L = s :: T := by
  cases f with
  | zero => exact absurd h (by simp [walkP])
  | succ g =>
    simp only [walkP] at h
    cases hl : lookupParent ps s with
    | none => rw [hl] at h; exact absurd h (by simp)
    | some o =>
      cases o with
      | none =>
        rw [hl] at h
        simp only [Option.some.injEq] at h
        exact ⟨[], h.symm⟩
      | some p =>
        rw [hl] at h
        simp only [Option.map_eq_some'] at h
        obtain ⟨M, _, hL⟩ := h
        exact ⟨M, hL.symm⟩

theorem walkP_keys (ps : Parents) : ∀ (f : Nat) (s : Board) (L : List Board),
    walkP ps f s = some L → ∀ x ∈ L, x ∈ List.map Prod.fst ps := by
  intro f
  induction f with
  | zero => intro s L h; exact absurd h (by simp [walkP])
  | succ g ih =>
    intro s L h x hx
    simp only [walkP] at h
    cases hl : lookupParent ps s with
    | none => rw [hl] at h; exact absurd h (by simp)
    | some o =>
      have hs : s ∈ List.map Prod.fst ps := by
        unfold lookupParent at hl
        cases hf : List.find? (fun e => e.1 == s) ps with
        | none => rw [hf] at hl; exact absurd hl (by simp)
        | some e =>
          have hmem := List.mem_of_find?_eq_some hf
          have hps := List.find?_some hf
          have he : e.1 = s := by simpa using hps
          rw [← he]
          exact List.mem_map.mpr ⟨e, hmem, rfl⟩
      cases o with
      | none =>
        rw [hl] at h
        simp only [Option.some.injEq] at h
        subst h
        simp only [List.mem_singleton] at hx
        subst hx
        exact hs
      | some p =>
        rw [hl] at h
        simp only [Option.map_eq_some'] at h
        obtain ⟨M, hw, hL⟩ := h
        subst hL
        rcases List.mem_cons.mp hx with hx | hx
        · subst hx; exact hs
        · exact ih p M hw x hx

theorem walkP_mem (ps : Parents) : ∀ (f : Nat) (s : Board) (L : List Board),
    walkP ps f s = some L → ∀ x ∈ L,
    ∃ g M, walkP ps g x = some M ∧ M.length ≤ L.length := by
  intro f
  induction f with
  | zero => intro s L h; exact absurd h (by simp [walkP])
  | succ g ih =>
    intro s L h x hx
    have hstep := h
    simp only [walkP] at h
    cases hl : lookupParent ps s with
    | none => rw [hl] at h; exact absurd h (by simp)
    | some o =>
      cases o with
      | none =>
        rw [hl] at h
        simp only [Option.some.injEq] at h
        subst h
        simp only [List.mem_singleton] at hx
        subst hx
        exact ⟨g + 1, [x], hstep, le_refl _⟩
      | some p =>
        rw [hl] at h
        simp only [Option.map_eq_some'] at h
        obtain ⟨M, hw, hL⟩ := h
        subst hL
        rcases List.mem_cons.mp hx with hx | hx
        · subst hx
          exact ⟨g + 1, x :: M, hstep, le_refl _⟩
        · obtain ⟨g', M', hg', hlen⟩ := ih p M hw x hx
          refine ⟨g', M', hg', ?_⟩
          simp only [List.length_cons]
          omega

theorem walkP_nodup (ps : Parents) : ∀ (f : Nat) (s : Board) (L : List Board),
    walkP ps f s = some L → L.Nodup := by
  intro f
  induction f with
  | zero => intro s L h; exact absurd h (by simp [walkP])
  | succ g ih =>
    intro s L h
    have hstep := h
    simp only [walkP] at h
    cases hl : lookupParent ps s with
    | none => rw [hl] at h; exact absurd h (by simp)
    | some o =>
      cases o with
      | none =>
        rw [hl] at h
        simp only [Option.some.injEq] at h
        subst h
        simp
      | some p =>
        rw [hl] at h
        simp only [Option.map_eq_some'] at h
        obtain ⟨M, hw, hL⟩ := h
        subst hL
        refine List.nodup_cons.mpr ⟨?_, ih p M hw⟩
        intro hsM
        obtain ⟨g', M', hg', hlen⟩ := walkP_mem ps g p M hw s hsM
        have hdet := walkP_det ps g' s M' hg' (g + 1) (s :: M) hstep
        rw [hdet] at hlen
        simp only [List.length_cons] at hlen
        omega

theorem walkP_length_le (ps : Parents) (f : Nat) (s : Board) (L : List Board)
    (h : walkP ps f s = some L) : L.length ≤ ps.length := by
  have h1 := walkP_nodup ps f s L h
  have h2 : L ⊆ List.map Prod.fst ps := fun x hx => walkP_keys ps f s L h x hx
  have h3 := (List.Nodup.subperm h1 h2).length_le
  simpa using h3

theorem walkP_frame (ps : Parents) (b : Board) (v : Option Board) :
    ∀ (f : Nat) (s : Board) (L : List Board),
    walkP ps f s = some L → b ∉ L → walkP (setParent ps b v) f s = some L := by
  intro f
  induction f with
  | zero => intro s L h; exact absurd h (by simp [walkP])
  | succ g ih =>
    intro s L h hb
    have hhead := walkP_head ps (g + 1) s L h
    simp only [walkP] at h ⊢
    cases hl : lookupParent ps s with
    | none => rw [hl] at h; exact absurd h (by simp)
    | some o =>
      have hsb : s ≠ b := by
        intro he
        subst he
        obtain ⟨T, hT⟩ := hhead
        exact hb (hT ▸ List.mem_cons_self s T)
      cases o with
      | none =>
        rw [hl] at h
        simp only [lookupParent_setParent_ne ps b s v hsb, hl]
        exact h
      | some p =>
        rw [hl] at h
        simp only [Option.map_eq_some'] at h
        obtain ⟨M, hw, hL⟩ := h
        subst hL
        simp only [lookupParent_setParent_ne ps b s v hsb, hl]
        rw [ih p M hw (fun hc => hb (List.mem_cons_of_mem s hc))]
        rfl

theorem pathPairCost_append_pair : ∀ (M : List Board) (n s : Board),
    pathPairCost (M ++ [n, s]) = pathPairCost (M ++ [n]) + edgeCost n s := by
  intro M
  induction M with
  | nil =>
    intro n s
    show edgeCost n s + pathPairCost [s] = pathPairCost [n] + edgeCost n s
    show edgeCost n s + 0 = 0 + edgeCost n s
    omega
  | cons m M' ih =>
    intro n s
    cases M' with
    | nil =>
      show edgeCost m n + pathPairCost [n, s] = pathPairCost (m :: [n]) + edgeCost n s
      show edgeCost m n + (edgeCost n s + 0) = (edgeCost m n + 0) + edgeCost n s
      omega
    | cons m' M'' =>
      have h1 : pathPairCost ((m :: m' :: M'') ++ [n, s])
          = edgeCost m m' + pathPairCost ((m' :: M'') ++ [n, s]) := rfl
      have h2 : pathPairCost ((m :: m' :: M'') ++ [n])
          = edgeCost m m' + pathPairCost ((m' :: M'') ++ [n]) := rfl
      rw [h1, h2, ih n s]
      omega

/-- Binding `succ`'s parent to `node` in a well-formed parent map extends
the reconstructed path by one state and the path cost by the edge cost of
the final slide: this is the mechanism by which the priority-queue
solvers compute `get_cost(succ) = get_cost(node) + edgeCost node succ`
right after executing `self.parents[succ] = node`. -/
theorem get_cost_extend (ps : Parents) (node succ : Board)
    (hch : chainOk ps node = true) (hnm : succ ∉ get_path ps node) :
    get_path (setParent ps succ (some node)) succ = get_path ps node ++ [succ] ∧
    get_cost (setParent ps succ (some node)) succ
      = get_cost ps node + edgeCost node succ := by
  obtain ⟨L, hL⟩ := Option.isSome_iff_exists.mp hch
  have hpath : get_path ps node = L.reverse := by
    unfold get_path
    rw [hL]
    rfl
  have hnmL : succ ∉ L := by
    intro hx
    apply hnm
    rw [hpath]
    exact List.mem_reverse.mpr hx
  have hlenL : L.length ≤ ps.length := walkP_length_le ps _ node L hL
  have hframe : walkP (setParent ps succ (some node)) (ps.length + 1) node = some L :=
    walkP_frame ps succ (some node) _ node L hL hnmL
  have hlen' : ps.length ≤ (setParent ps succ (some node)).length :=
    setParent_length_ge ps succ (some node)
  have hfuel : walkP (setParent ps succ (some node))
      (setParent ps succ (some node)).length node = some L :=
    walkP_fuel _ _ node L hframe _ (by omega)
  have hwsucc : walkP (setParent ps succ (some node))
      ((setParent ps succ (some node)).length + 1) succ = some (succ :: L) := by
    simp only [walkP, lookupParent_setParent_self, hfuel]
    rfl
  have hps' : get_path (setParent ps succ (some node)) succ = L.reverse ++ [succ] := by
    unfold get_path
    rw [hwsucc]
    simp
  obtain ⟨T, hT⟩ := walkP_head ps _ node L hL
  constructor
  · rw [hps', hpath]
  · unfold get_cost
    rw [hps', hpath, costFold_eq_pathPairCost, costFold_eq_pathPairCost, hT]
    have hrev : (node :: T).reverse = T.reverse ++ [node] := by
      simp
    rw [hrev]
    have hassoc : (T.reverse ++ [node]) ++ [succ] = T.reverse ++ [node, succ] := by
      simp
    rw [hassoc, pathPairCost_append_pair]

/-! ## Claims C1 and C3: per-successor processing of UCS and BFS -/

/-- C1: in `UniformCostSolver.solve`, for a generated successor `succ` of
the node being expanded that is not in the explored set (with the
parent-map well-formedness that every reachable search state enjoys:
`node`'s parent chain terminates and does not contain `succ`): if `succ`
is in the frontier with a stored priority strictly greater than the
alternative path cost through `node` (`get_cost(node) +
transition_cost(node, move)`), it is removed and re-added with exactly
that cheaper priority and its parent-map entry is rebound to `node`;
if `succ` is in neither the frontier nor the explored set, it is added
with its computed path cost (which equals the same alternative cost) and
`frontier_count` is incremented by exactly one. -/
theorem claim_C1_ucs_successor (st : PqSolver) (node succ : Board)
    (move : String)
    (hv : validBoard node = true)
    (hmem : (move, succ) ∈ node.successors)
    (hch : chainOk st.parents node = true)
    (hnp : succ ∉ get_path st.parents node)
    (hne : succ ∉ st.explored) :
    (pqContains st.frontier succ = true →
      pqGet st.frontier succ > get_cost st.parents node + transition_cost node move →
      ucsStep st node (move, succ)
        = PqSolver.mk (setParent st.parents succ (some node))
            (pqAdd (pqRemove st.frontier succ) succ
              (get_cost st.parents node + transition_cost node move))
            st.explored st.frontier_count st.expanded_count) ∧
    (pqContains st.frontier succ = false →
      ucsStep st node (move, succ)
        = PqSolver.mk (setParent st.parents succ (some node))
            (pqAdd st.frontier succ
              (get_cost st.parents node + transition_cost node move))
            st.explored (st.frontier_count + 1) st.expanded_count) := by
  have hcost : get_cost (setParent st.parents succ (some node)) succ
      = get_cost st.parents node + transition_cost node move := by
    rw [(get_cost_extend st.parents node succ hch hnp).2,
      transition_cost_eq_edgeCost node move succ hv hmem]
  constructor
  · intro hc hgt
    simp only [ucsStep]
    rw [if_neg hne, if_pos hc, if_pos hgt, hcost]
  · intro hc
    simp only [ucsStep]
    rw [if_neg hne, if_neg (by simp [hc]), hcost]

/-- Witness for C1 at concrete inputs: expanding `boardA` in a state
whose frontier holds the goal at priority 99 replaces that entry with the
alternative cost 1 and rebinds the parent. -/
theorem claim_C1_witness :
    ucsStep (PqSolver.mk (setParent [] boardA none) [(GOAL_STATE, 99)] [] 1 0)
        boardA ("right", GOAL_STATE)
      = PqSolver.mk (setParent (setParent [] boardA none) GOAL_STATE (some boardA))
          (pqAdd (pqRemove [(GOAL_STATE, 99)] GOAL_STATE) GOAL_STATE
            (get_cost (setParent [] boardA none) boardA
              + transition_cost boardA "right"))
          [] 1 0 :=
  (claim_C1_ucs_successor
    (PqSolver.mk (setParent [] boardA none) [(GOAL_STATE, 99)] [] 1 0)
    boardA GOAL_STATE "right" (by decide) (by decide) (by decide) (by decide)
    (by decide)).1 (by decide) (by decide)

/-- C3: in `BreadthFirstSolver.solve`, the goal test is applied to each
generated successor before insertion into the frontier: a successor
already in the frontier or the explored set is discarded with no parent
rebinding and no cost comparison; a fresh successor equal to the goal
makes the processing return the success pair immediately, with the
frontier, `frontier_count` and the counters unchanged (the goal is not
added to the frontier); any other fresh successor has its parent bound
and is appended to the frontier via `add_to_frontier`. -/
theorem claim_C3_bfs_successor (st : BfsSolver) (node succ : Board)
    (move : String) (rest : List (String × Board)) :
    ((succ ∈ st.frontier ∨ succ ∈ st.explored) →
      bfsProcess st node ((move, succ) :: rest) = bfsProcess st node rest) ∧
    (succ ∉ st.frontier → succ ∉ st.explored → succ = GOAL_STATE →
      bfsProcess st node ((move, succ) :: rest)
        = (BfsSolver.mk (setParent st.parents succ (some node)) st.frontier
            st.explored st.frontier_count st.expanded_count, some succ)) ∧
    (succ ∉ st.frontier → succ ∉ st.explored → succ ≠ GOAL_STATE →
      bfsProcess st node ((move, succ) :: rest)
        = bfsProcess (addToFrontier
            (BfsSolver.mk (setParent st.parents succ (some node)) st.frontier
              st.explored st.frontier_count st.expanded_count) succ) node rest) := by
  refine ⟨?_, ?_, ?_⟩
  · intro h
    simp only [bfsProcess]
    rw [if_neg (by tauto)]
  · intro h1 h2 h3
    simp only [bfsProcess]
    rw [if_pos ⟨h1, h2⟩, if_pos h3]
  · intro h1 h2 h3
    simp only [bfsProcess]
    rw [if_pos ⟨h1, h2⟩, if_neg h3]

/-- Witness for C3 at a concrete input: expanding `boardA` with empty
frontier and explored set, the successor list containing only the goal
returns success immediately without touching the frontier. -/
theorem claim_C3_witness :
    bfsProcess (BfsSolver.mk (setParent [] boardA none) [] [] 1 1) boardA
        [("right", GOAL_STATE)]
      = (BfsSolver.mk (setParent (setParent [] boardA none) GOAL_STATE
          (some boardA)) [] [] 1 1, some GOAL_STATE) :=
  (claim_C3_bfs_successor (BfsSolver.mk (setParent [] boardA none) [] [] 1 1)
    boardA GOAL_STATE "right" []).2.1 (by decide) (by decide) rfl

/-! ## Claims C7 and C9: frontier exhaustion and the trivial search -/

/-- C7: for every strategy, when the frontier becomes empty without the
goal being reached the loop returns normally (value, not exception) and
`solve` produces a result dictionary that omits both the path and the
path cost (`none` fields) while still carrying the final
`frontier_count` and `expanded_count`. -/
theorem claim_C7_search_failure :
    (∀ (st : BfsSolver) (fuel : Nat), st.frontier = [] →
      bfsLoop (fuel + 1) st = some (st, none)) ∧
    (∀ (st : PqSolver) (fuel : Nat), st.frontier = [] →
      ucsLoop (fuel + 1) st = some (st, none)) ∧
    (∀ (heur : String) (st : PqSolver) (fuel : Nat), st.frontier = [] →
      greedyLoop heur (fuel + 1) st = some (st, none)) ∧
    (∀ (heur : String) (st : PqSolver) (fuel : Nat), st.frontier = [] →
      astarLoop heur (fuel + 1) st = some (st, none)) ∧
    (∀ (ps : Parents) (fc ec : Nat),
      get_results_dict ps fc ec none = SearchResult.mk fc ec none none) ∧
    (∀ (fuel : Nat) (start : Board) (st' : BfsSolver), start ≠ GOAL_STATE →
      bfsLoop fuel (bfsInit start) = some (st', none) →
      bfsSolve fuel start
        = some (SearchResult.mk st'.frontier_count st'.expanded_count none none)) ∧
    (∀ (fuel : Nat) (start : Board) (st' : PqSolver), start ≠ GOAL_STATE →
      ucsLoop fuel (pqInit start) = some (st', none) →
      ucsSolve fuel start
        = some (SearchResult.mk st'.frontier_count st'.expanded_count none none)) ∧
    (∀ (heur : String) (fuel : Nat) (start : Board) (st' : PqSolver),
      start ≠ GOAL_STATE →
      greedyLoop heur fuel (pqInit start) = some (st', none) →
      greedySolve fuel start heur
        = some (SearchResult.mk st'.frontier_count st'.expanded_count none none)) ∧
    (∀ (heur : String) (fuel : Nat) (start : Board) (st' : PqSolver),
      start ≠ GOAL_STATE →
      astarLoop heur fuel (pqInit start) = some (st', none) →
      astarSolve fuel start heur
        = some (SearchResult.mk st'.frontier_count st'.expanded_count none none)) := by
  refine ⟨?_, ?_, ?_, ?_, ?_, ?_, ?_, ?_, ?_⟩
  · intro st fuel h
    simp only [bfsLoop, h]
  · intro st fuel h
    simp only [ucsLoop, h, pqPop]
  · intro heur st fuel h
    simp only [greedyLoop, h, pqPop]
  · intro heur st fuel h
    simp only [astarLoop, h, pqPop]
  · intro ps fc ec
    rfl
  · intro fuel start st' hne hloop
    simp only [bfsSolve, if_neg hne, hloop]
    rfl
  · intro fuel start st' hne hloop
    simp only [ucsSolve, if_neg hne, hloop]
    rfl
  · intro heur fuel start st' hne hloop
    simp only [greedySolve, if_neg hne, hloop]
    rfl
  · intro heur fuel start st' hne hloop
    simp only [astarSolve, if_neg hne, hloop]
    rfl

/-- Witness for C7 at a concrete input: searching from `loopBoard` (whose
successors all equal itself) exhausts the frontier after one expansion,
and `bfsSolve` reports counters 1/1 with no path and no path cost. -/
theorem claim_C7_witness :
    bfsSolve 2 loopBoard = some (SearchResult.mk 1 1 none none) := by
  have h := claim_C7_search_failure.2.2.2.2.2.1 2 loopBoard
    (BfsSolver.mk (setParent [] loopBoard none) [] [loopBoard] 1 1)
    (by decide) (by decide)
  simpa using h

/-- C9: for every strategy and any heuristic tag, if the start state
equals the goal state then `solve` returns a success result whose path is
the single pair `("start", start)` (length 1) and whose path cost is 0,
with counters 1/0 from the initial `add_to_frontier`. -/
theorem claim_C9_start_is_goal (fuel : Nat) (start : Board) (heur : String)
    (h : start = GOAL_STATE) :
    bfsSolve fuel start
      = some (SearchResult.mk 1 0 (some 0) (some [("start", start)])) ∧
    ucsSolve fuel start
      = some (SearchResult.mk 1 0 (some 0) (some [("start", start)])) ∧
    greedySolve fuel start heur
      = some (SearchResult.mk 1 0 (some 0) (some [("start", start)])) ∧
    astarSolve fuel start heur
      = some (SearchResult.mk 1 0 (some 0) (some [("start", start)])) := by
  subst h
  exact ⟨rfl, rfl, rfl, rfl⟩

/-- Witness for C9 at a concrete input: the goal state itself, fuel 0,
heuristic tag "h1". -/
theorem claim_C9_witness :
    bfsSolve 0 GOAL_STATE
      = some (SearchResult.mk 1 0 (some 0) (some [("start", GOAL_STATE)])) ∧
    ucsSolve 0 GOAL_STATE
      = some (SearchResult.mk 1 0 (some 0) (some [("start", GOAL_STATE)])) ∧
    greedySolve 0 GOAL_STATE "h1"
      = some (SearchResult.mk 1 0 (some 0) (some [("start", GOAL_STATE)])) ∧
    astarSolve 0 GOAL_STATE "h1"
      = some (SearchResult.mk 1 0 (some 0) (some [("start", GOAL_STATE)])) :=
  claim_C9_start_is_goal 0 GOAL_STATE "h1" rfl

/-! ## Claim C6 (corrected): invalid heuristic tags are not usage errors -/

/-- Counterexample to C6 as stated: invoking `solve_puzzle` with the
flavor "greedy-h4" (an invalid heuristic tag) is NOT reported as a usage
error - the dispatch succeeds (`Except.ok`, whereas unknown strategy
tags raise `ValueError`) and the greedy search is invoked with the
invalid tag; `_heuristic` merely prints an error message and returns
`None` (modelled `none`) instead of raising. -/
theorem counterexample_C6 :
    solve_puzzle 4 boardA "greedy-h4" = Except.ok (greedySolve 4 boardA "h4")
    ∧ heuristic_of GOAL_STATE "h4" = none :=
  ⟨rfl, rfl⟩

/-- C6 (amended): only an unknown strategy tag raises a usage error
(`ValueError`).  An invalid heuristic tag is passed through unvalidated:
`solve_puzzle` dispatches to the Greedy/A* solver, so the search is
attempted, and `_heuristic` returns `None` (after printing an error
message) rather than reporting a usage error to the caller. -/
theorem claim_C6_amended :
    (∀ (fuel : Nat) (start : Board),
      solve_puzzle fuel start "greedy-h4" = Except.ok (greedySolve fuel start "h4")) ∧
    (∀ (fuel : Nat) (start : Board),
      solve_puzzle fuel start "astar-h9" = Except.ok (astarSolve fuel start "h9")) ∧
    (∀ (fuel : Nat) (start : Board),
      solve_puzzle fuel start "foo" = Except.error "Unknown search flavor foo") ∧
    (∀ (b : Board) (h : String), h ≠ "h1" → h ≠ "h2" → h ≠ "h3" →
      heuristic_of b h = none) := by
  refine ⟨?_, ?_, ?_, ?_⟩
  · intro fuel start
    rfl
  · intro fuel start
    rfl
  · intro fuel start
    rfl
  · intro b h h1 h2 h3
    unfold heuristic_of
    rw [if_neg h1, if_neg h2, if_neg h3]

/-- Witness for the amended C6 at a concrete input. -/
theorem claim_C6_witness :
    heuristic_of GOAL_STATE "h9" = none :=
  claim_C6_amended.2.2.2 GOAL_STATE "h9" (by decide) (by decide) (by decide)

/-! ## Claim C10 (corrected): the goal is expanded, but its successors
are not enqueued -/

/-- Counterexample to C10 as stated: in the concrete A*-h2 run from
`boardA`, the loop pops the goal and returns; `boardD` is a successor of
the goal that was never seen before, yet it is in neither the final
frontier nor the explored set - the goal's successors are NOT enqueued
before returning (the `return` precedes the successor loop). -/
theorem counterexample_C10 :
    (astarLoop "h2" 3 (pqInit boardA)).map
        (fun p => (p.2, pqContains p.1.frontier boardD, p.1.explored.contains boardD))
      = some (some GOAL_STATE, false, false)
    ∧ ("down", boardD) ∈ GOAL_STATE.successors := by
  constructor
  · decide
  · decide

/-- C10 (amended): in `UniformCostSolver.solve` and `AStarSolver.solve`
every popped node - including the goal - is expanded before the pop-time
goal test (`expand_node` runs first, so on success `expanded_count`
includes the goal state itself), but the iteration then returns
immediately after the goal test: the goal's successors are never
processed, and the frontier, parent map and `frontier_count` are
unchanged in that final iteration. -/
theorem claim_C10_goal_expansion (st : PqSolver) (fuel : Nat)
    (e : Board × Nat) (q' : PQueue)
    (hpop : pqPop st.frontier = some (e, q')) (hg : e.1 = GOAL_STATE) :
    ucsLoop (fuel + 1) st
      = some (PqSolver.mk st.parents q' (insertSet st.explored e.1)
          st.frontier_count (st.expanded_count + 1), some e.1) ∧
    ∀ heur, astarLoop heur (fuel + 1) st
      = some (PqSolver.mk st.parents q' (insertSet st.explored e.1)
          st.frontier_count (st.expanded_count + 1), some e.1) := by
  constructor
  · simp only [ucsLoop, hpop]
    rw [if_pos hg]
  · intro heur
    simp only [astarLoop, hpop]
    rw [if_pos hg]

/-- Witness for the amended C10 at a concrete input: popping the goal
expands it (counters 1/1) and returns with the frontier untouched. -/
theorem claim_C10_witness :
    ucsLoop 1 (PqSolver.mk [] [(GOAL_STATE, 0)] [] 1 0)
      = some (PqSolver.mk [] [] [GOAL_STATE] 1 1, some GOAL_STATE) := by
  have h := (claim_C10_goal_expansion (PqSolver.mk [] [(GOAL_STATE, 0)] [] 1 0) 0
    (GOAL_STATE, 0) [] (by decide) rfl).1
  simpa using h

/-! ## Claim C8: counter invariants -/

theorem pqStates_add (q : PQueue) (b : Board) (p : Nat) :
    pqStates (pqAdd q b p) = pqStates q ++ [b] := by
  simp [pqStates, pqAdd]

theorem pqStates_remove (q : PQueue) (b : Board) :
    pqStates (pqRemove q b) = List.filter (fun x => !(x == b)) (pqStates q) := by
  induction q with
  | nil => rfl
  | cons e t ih =>
    simp only [pqStates, pqRemove, List.filter_cons, List.map_cons] at ih ⊢
    cases h : (e.1 == b) with
    | true => simpa [h] using ih
    | false => simpa [h] using ih

theorem pqContains_iff (q : PQueue) (b : Board) :
    pqContains q b = true ↔ b ∈ pqStates q := by
  simp only [pqContains, List.any_eq_true, pqStates, List.mem_map]
  constructor
  · rintro ⟨e, he, hbeq⟩
    exact ⟨e, he, by simpa using hbeq⟩
  · rintro ⟨e, he, hbeq⟩
    exact ⟨e, he, by simp [hbeq]⟩

theorem length_pqStates (q : PQueue) : (pqStates q).length = q.length :=
  List.length_map q Prod.fst

theorem not_mem_filter_ne (l : List Board) (b : Board) :
    b ∉ List.filter (fun x => !(x == b)) l := by
  intro h
  have h2 := List.of_mem_filter h
  simp at h2

theorem mem_filter_ne (l : List Board) (b x : Board)
    (h : x ∈ List.filter (fun x => !(x == b)) l) : x ∈ l :=
  List.mem_of_mem_filter h

theorem filter_ne_length (b : Board) : ∀ (l : List Board), l.Nodup → b ∈ l →
    (List.filter (fun x => !(x == b)) l).length + 1 = l.length := by
  intro l
  induction l with
  | nil => intro _ h; simp at h
  | cons a t ih =>
    intro hn hm
    by_cases hab : a = b
    · subst hab
      have hat : a ∉ t := (List.nodup_cons.mp hn).1
      have hfix : List.filter (fun x => !(x == a)) t = t := by
        rw [List.filter_eq_self]
        intro x hx
        have hxa : x ≠ a := fun he => hat (he ▸ hx)
        simp [hxa]
      rw [List.filter_cons]
      simp [hfix]
    · have hbt : b ∈ t := by
        rcases List.mem_cons.mp hm with he | ht
        · exact absurd he.symm hab
        · exact ht
      rw [List.filter_cons]
      have ha : (!(a == b)) = true := by simp [hab]
      rw [if_pos ha]
      have hih := ih (List.nodup_cons.mp hn).2 hbt
      simp only [List.length_cons]
      omega

theorem pqPop_cons_isSome (e : Board × Nat) (t : PQueue) :
    (pqPop (e :: t)).isSome = true := by
  cases hp : pqPop t with
  | none => simp [pqPop, hp]
  | some m =>
    obtain ⟨me, mq⟩ := m
    simp only [pqPop, hp]
    by_cases hle : e.2 ≤ me.2
    · simp [hle]
    · simp [hle]

theorem pqPop_split : ∀ (q : PQueue) (e : Board × Nat) (q' : PQueue),
    pqPop q = some (e, q') → ∃ l1 l2, q = l1 ++ e :: l2 ∧ q' = l1 ++ l2 := by
  intro q
  induction q with
  | nil => intro e q' h; exact absurd h (by simp [pqPop])
  | cons x t ih =>
    intro e q' h
    simp only [pqPop] at h
    cases hp : pqPop t with
    | none =>
      rw [hp] at h
      simp only [] at h
      cases t with
      | nil =>
        simp only [Option.some.injEq, Prod.mk.injEq] at h
        exact ⟨[], [], by simp [h.1], by simp [h.2]⟩
      | cons y t2 =>
        have hs := pqPop_cons_isSome y t2
        rw [hp] at hs
        simp at hs
    | some m =>
      obtain ⟨me, mq⟩ := m
      rw [hp] at h
      simp only [] at h
      by_cases hle : x.2 ≤ me.2
      · rw [if_pos hle] at h
        simp only [Option.some.injEq, Prod.mk.injEq] at h
        exact ⟨[], t, by simp [h.1], by simp [h.2]⟩
      · rw [if_neg hle] at h
        simp only [Option.some.injEq, Prod.mk.injEq] at h
        obtain ⟨l1, l2, ht, ht'⟩ := ih me mq hp
        refine ⟨x :: l1, l2, ?_, ?_⟩
        · rw [← h.1, List.cons_append, ← ht]
        · rw [← h.2, ht']
          rfl

theorem insertSet_of_not_mem (l : List Board) (b : Board) (h : b ∉ l) :
    insertSet l b = l ++ [b] := by
  unfold insertSet
  rw [if_neg h]

theorem nodup_snoc (l : List Board) (b : Board) (h1 : l.Nodup) (h2 : b ∉ l) :
    (l ++ [b]).Nodup := by
  rw [List.nodup_append]
  exact ⟨h1, List.nodup_singleton b, by simpa [List.disjoint_left] using h2⟩

theorem ucsStep_inv (st : PqSolver) (node : Board) (ms : String × Board)
    (h : InvP st) : InvP (ucsStep st node ms) := by
  obtain ⟨hfn, hen, hdis, hfc, hec⟩ := h
  simp only [ucsStep]
  by_cases he : ms.2 ∈ st.explored
  · rw [if_pos he]
    exact ⟨hfn, hen, hdis, hfc, hec⟩
  · rw [if_neg he]
    by_cases hc : pqContains st.frontier ms.2 = true
    · rw [if_pos hc]
      by_cases hgt : pqGet st.frontier ms.2
          > get_cost st.parents node + transition_cost node ms.1
      · rw [if_pos hgt]
        have hmem := (pqContains_iff _ _).mp hc
        refine ⟨?_, hen, ?_, ?_, hec⟩
        · rw [pqStates_add, pqStates_remove]
          exact nodup_snoc _ _ (List.Nodup.filter _ hfn) (not_mem_filter_ne _ _)
        · intro x hx
          rw [pqStates_add, pqStates_remove] at hx
          rcases List.mem_append.mp hx with hx | hx
          · exact hdis x (mem_filter_ne _ _ _ hx)
          · simp only [List.mem_singleton] at hx
            subst hx
            exact he
        · have h1 : (pqAdd (pqRemove st.frontier ms.2) ms.2
              (get_cost (setParent st.parents ms.2 (some node)) ms.2)).length
              = (pqRemove st.frontier ms.2).length + 1 := by
            simp [pqAdd]
          have h2 : (pqRemove st.frontier ms.2).length
              = (pqStates (pqRemove st.frontier ms.2)).length :=
            (length_pqStates _).symm
          rw [pqStates_remove] at h2
          have h3 := filter_ne_length ms.2 (pqStates st.frontier) hfn hmem
          have h4 := length_pqStates st.frontier
          simp only []
          omega
      · rw [if_neg hgt]
        exact ⟨hfn, hen, hdis, hfc, hec⟩
    · rw [if_neg hc]
      have hnmem : ms.2 ∉ pqStates st.frontier := fun hm => hc ((pqContains_iff _ _).mpr hm)
      refine ⟨?_, hen, ?_, ?_, hec⟩
      · rw [pqStates_add]
        exact nodup_snoc _ _ hfn hnmem
      · intro x hx
        rw [pqStates_add] at hx
        rcases List.mem_append.mp hx with hx | hx
        · exact hdis x hx
        · simp only [List.mem_singleton] at hx
          subst hx
          exact he
      · have h1 : (pqAdd st.frontier ms.2
            (get_cost (setParent st.parents ms.2 (some node)) ms.2)).length
            = st.frontier.length + 1 := by
          simp [pqAdd]
        simp only []
        omega

theorem greedyStep_inv (heur : String) (st : PqSolver) (node : Board)
    (ms : String × Board) (st' : PqSolver) (h : InvP st)
    (hs : greedyStep heur st node ms = some st') : InvP st' := by
  obtain ⟨hfn, hen, hdis, hfc, hec⟩ := h
  simp only [greedyStep] at hs
  by_cases hc : ms.2 ∉ pqStates st.frontier ∧ ms.2 ∉ st.explored
  · rw [if_pos hc] at hs
    cases hh : heuristic_of ms.2 heur with
    | none => rw [hh] at hs; exact absurd hs (by simp)
    | some hv =>
      rw [hh] at hs
      simp only [Option.some.injEq] at hs
      rw [← hs]
      refine ⟨?_, hen, ?_, ?_, hec⟩
      · rw [pqStates_add]
        exact nodup_snoc _ _ hfn hc.1
      · intro x hx
        rw [pqStates_add] at hx
        rcases List.mem_append.mp hx with hx | hx
        · exact hdis x hx
        · simp only [List.mem_singleton] at hx
          subst hx
          exact hc.2
      · have h1 : (pqAdd st.frontier ms.2 hv).length = st.frontier.length + 1 := by
          simp [pqAdd]
        simp only []
        omega
  · rw [if_neg hc] at hs
    simp only [Option.some.injEq] at hs
    rw [← hs]
    exact ⟨hfn, hen, hdis, hfc, hec⟩

theorem astarStep_inv (heur : String) (st : PqSolver) (node : Board)
    (ms : String × Board) (st' : PqSolver) (h : InvP st)
    (hs : astarStep heur st node ms = some st') : InvP st' := by
  obtain ⟨hfn, hen, hdis, hfc, hec⟩ := h
  simp only [astarStep] at hs
  by_cases he : ms.2 ∉ st.explored
  · rw [if_pos he] at hs
    by_cases hc : pqContains st.frontier ms.2 = true
    · rw [if_pos hc] at hs
      cases hh : heuristic_of ms.2 heur with
      | none => rw [hh] at hs; exact absurd hs (by simp)
      | some hv =>
        rw [hh] at hs
        simp only [] at hs
        by_cases hlt : get_cost st.parents node + hv + transition_cost node ms.1
            < pqGet st.frontier ms.2
        · rw [if_pos hlt] at hs
          simp only [Option.some.injEq] at hs
          rw [← hs]
          have hmem := (pqContains_iff _ _).mp hc
          refine ⟨?_, hen, ?_, ?_, hec⟩
          · rw [pqStates_add, pqStates_remove]
            exact nodup_snoc _ _ (List.Nodup.filter _ hfn) (not_mem_filter_ne _ _)
          · intro x hx
            rw [pqStates_add, pqStates_remove] at hx
            rcases List.mem_append.mp hx with hx | hx
            · exact hdis x (mem_filter_ne _ _ _ hx)
            · simp only [List.mem_singleton] at hx
              subst hx
              exact he
          · have h1 : (pqAdd (pqRemove st.frontier ms.2) ms.2
                (get_cost st.parents node + hv + transition_cost node ms.1)).length
                = (pqRemove st.frontier ms.2).length + 1 := by
              simp [pqAdd]
            have h2 : (pqRemove st.frontier ms.2).length
                = (pqStates (pqRemove st.frontier ms.2)).length :=
              (length_pqStates _).symm
            rw [pqStates_remove] at h2
            have h3 := filter_ne_length ms.2 (pqStates st.frontier) hfn hmem
            have h4 := length_pqStates st.frontier
            simp only []
            omega
        · rw [if_neg hlt] at hs
          simp only [Option.some.injEq] at hs
          rw [← hs]
          exact ⟨hfn, hen, hdis, hfc, hec⟩
    · rw [if_neg hc] at hs
      have hnmem : ms.2 ∉ pqStates st.frontier := fun hm => hc ((pqContains_iff _ _).mpr hm)
      cases hh : heuristic_of ms.2 heur with
      | none => rw [hh] at hs; exact absurd hs (by simp)
      | some hv =>
        rw [hh] at hs
        simp only [Option.some.injEq] at hs
        rw [← hs]
        refine ⟨?_, hen, ?_, ?_, hec⟩
        · rw [pqStates_add]
          exact nodup_snoc _ _ hfn hnmem
        · intro x hx
          rw [pqStates_add] at hx
          rcases List.mem_append.mp hx with hx | hx
          · exact hdis x hx
          · simp only [List.mem_singleton] at hx
            subst hx
            exact he
        · have h1 : (pqAdd st.frontier ms.2
              (get_cost (setParent st.parents ms.2 (some node)) ms.2 + hv)).length
              = st.frontier.length + 1 := by
            simp [pqAdd]
          simp only []
          omega
  · rw [if_neg he] at hs
    simp only [Option.some.injEq] at hs
    rw [← hs]
    exact ⟨hfn, hen, hdis, hfc, hec⟩

theorem bfsProcess_inv (node : Board) : ∀ (l : List (String × Board))
    (st : BfsSolver), InvB st → InvB (bfsProcess st node l).1 := by
  intro l
  induction l with
  | nil => intro st h; exact h
  | cons ms rest ih =>
    intro st h
    obtain ⟨hfn, hen, hdis, hfc, hec⟩ := h
    simp only [bfsProcess]
    by_cases hc : ms.2 ∉ st.frontier ∧ ms.2 ∉ st.explored
    · rw [if_pos hc]
      by_cases hg : ms.2 = GOAL_STATE
      · rw [if_pos hg]
        exact ⟨hfn, hen, hdis, hfc, hec⟩
      · rw [if_neg hg]
        apply ih
        refine ⟨?_, hen, ?_, ?_, hec⟩
        · exact nodup_snoc _ _ hfn hc.1
        · intro x hx
          rcases List.mem_append.mp hx with hx | hx
          · exact hdis x hx
          · simp only [List.mem_singleton] at hx
            subst hx
            exact hc.2
        · simp only [addToFrontier, List.length_append, List.length_singleton]
          omega
    · rw [if_neg hc]
      exact ih st ⟨hfn, hen, hdis, hfc, hec⟩

theorem ucsProcess_inv (node : Board) : ∀ (l : List (String × Board))
    (st : PqSolver), InvP st → InvP (ucsProcess st node l) := by
  intro l
  induction l with
  | nil => intro st h; exact h
  | cons ms rest ih =>
    intro st h
    exact ih (ucsStep st node ms) (ucsStep_inv st node ms h)

theorem greedyProcess_inv (heur : String) (node : Board) :
    ∀ (l : List (String × Board)) (st st' : PqSolver), InvP st →
    greedyProcess heur st node l = some st' → InvP st' := by
  intro l
  induction l with
  | nil =>
    intro st st' h hp
    simp only [greedyProcess, Option.some.injEq] at hp
    rw [← hp]
    exact h
  | cons ms rest ih =>
    intro st st' h hp
    simp only [greedyProcess] at hp
    cases hg : greedyStep heur st node ms with
    | none => rw [hg] at hp; exact absurd hp (by simp)
    | some st1 =>
      rw [hg] at hp
      exact ih st1 st' (greedyStep_inv heur st node ms st1 h hg) hp

theorem astarProcess_inv (heur : String) (node : Board) :
    ∀ (l : List (String × Board)) (st st' : PqSolver), InvP st →
    astarProcess heur st node l = some st' → InvP st' := by
  intro l
  induction l with
  | nil =>
    intro st st' h hp
    simp only [astarProcess, Option.some.injEq] at hp
    rw [← hp]
    exact h
  | cons ms rest ih =>
    intro st st' h hp
    simp only [astarProcess] at hp
    cases hg : astarStep heur st node ms with
    | none => rw [hg] at hp; exact absurd hp (by simp)
    | some st1 =>
      rw [hg] at hp
      exact ih st1 st' (astarStep_inv heur st node ms st1 h hg) hp

theorem pop_step_invP (st : PqSolver) (e : Board × Nat) (q' : PQueue)
    (hpop : pqPop st.frontier = some (e, q')) (h : InvP st) :
    InvP (PqSolver.mk st.parents q' (insertSet st.explored e.1)
      st.frontier_count (st.expanded_count + 1)) := by
  obtain ⟨l1, l2, hq, hq'⟩ := pqPop_split st.frontier e q' hpop
  obtain ⟨hfn, hen, hdis, hfc, hec⟩ := h
  have hs : pqStates st.frontier = pqStates l1 ++ e.1 :: pqStates l2 := by
    rw [hq]
    simp [pqStates]
  have hs' : pqStates q' = pqStates l1 ++ pqStates l2 := by
    rw [hq']
    simp [pqStates]
  have hmemq : e.1 ∈ pqStates st.frontier := by
    rw [hs]
    simp
  have hnexp : e.1 ∉ st.explored := hdis e.1 hmemq
  have hmid : (e.1 :: (pqStates l1 ++ pqStates l2)).Nodup := by
    rw [← List.nodup_middle, ← hs]
    exact hfn
  have hq'n : (pqStates l1 ++ pqStates l2).Nodup := (List.nodup_cons.mp hmid).2
  have henq' : e.1 ∉ pqStates l1 ++ pqStates l2 := (List.nodup_cons.mp hmid).1
  rw [insertSet_of_not_mem _ _ hnexp]
  refine ⟨?_, ?_, ?_, ?_, ?_⟩
  · simp only []
    rw [hs']
    exact hq'n
  · simp only []
    exact nodup_snoc _ _ hen hnexp
  · simp only []
    intro x hx hmem'
    rw [hs'] at hx
    rcases List.mem_append.mp hmem' with hx2 | hx2
    · have hxq : x ∈ pqStates st.frontier := by
        rw [hs]
        rcases List.mem_append.mp hx with h1 | h1
        · exact List.mem_append.mpr (Or.inl h1)
        · exact List.mem_append.mpr (Or.inr (List.mem_cons_of_mem _ h1))
      exact hdis x hxq hx2
    · simp only [List.mem_singleton] at hx2
      subst hx2
      exact henq' hx
  · simp only []
    have hlq : st.frontier.length = l1.length + l2.length + 1 := by
      rw [hq]
      simp
      omega
    have hlq' : q'.length = l1.length + l2.length := by
      rw [hq']
      simp
    rw [List.length_append, List.length_singleton]
    omega
  · simp only []
    rw [List.length_append, List.length_singleton]
    omega

theorem pop_step_invB (st : BfsSolver) (node : Board) (rest : List Board)
    (hf : st.frontier = node :: rest) (h : InvB st) :
    InvB (BfsSolver.mk st.parents rest (insertSet st.explored node)
      st.frontier_count (st.expanded_count + 1)) := by
  obtain ⟨hfn, hen, hdis, hfc, hec⟩ := h
  rw [hf] at hfn hdis hfc
  have hnr : node ∉ rest := (List.nodup_cons.mp hfn).1
  have hrn : rest.Nodup := (List.nodup_cons.mp hfn).2
  have hnexp : node ∉ st.explored := hdis node (List.mem_cons_self node rest)
  rw [insertSet_of_not_mem _ _ hnexp]
  refine ⟨hrn, nodup_snoc _ _ hen hnexp, ?_, ?_, ?_⟩
  · intro x hx hmem'
    rcases List.mem_append.mp hmem' with hx2 | hx2
    · exact hdis x (List.mem_cons_of_mem _ hx) hx2
    · simp only [List.mem_singleton] at hx2
      subst hx2
      exact hnr hx
  · simp only [List.length_append, List.length_singleton]
    simp only [List.length_cons] at hfc
    omega
  · simp only [List.length_append, List.length_singleton]
    omega

theorem invB_init (start : Board) : InvB (bfsInit start) := by
  refine ⟨by simp [bfsInit], by simp [bfsInit], ?_, rfl, rfl⟩
  intro b hb
  simp [bfsInit] at hb ⊢

theorem invP_init (start : Board) : InvP (pqInit start) := by
  refine ⟨by simp [pqInit, pqAdd, pqStates], by simp [pqInit], ?_, rfl, rfl⟩
  intro b hb
  simp [pqInit] at hb ⊢

theorem bfsLoop_inv : ∀ (fuel : Nat) (st : BfsSolver)
    (out : BfsSolver × Option Board), InvB st → bfsLoop fuel st = some out →
    InvB out.1 := by
  intro fuel
  induction fuel with
  | zero => intro st out h hl; exact absurd hl (by simp [bfsLoop])
  | succ g ih =>
    intro st out h hl
    simp only [bfsLoop] at hl
    cases hf : st.frontier with
    | nil =>
      rw [hf] at hl
      simp only [Option.some.injEq] at hl
      rw [← hl]
      exact h
    | cons node rest =>
      rw [hf] at hl
      simp only [] at hl
      have h1 := pop_step_invB st node rest hf h
      cases hp : bfsProcess (BfsSolver.mk st.parents rest
          (insertSet st.explored node) st.frontier_count
          (st.expanded_count + 1)) node node.successors with
      | mk st2 r =>
        rw [hp] at hl
        cases r with
        | some g2 =>
          simp only [Option.some.injEq] at hl
          rw [← hl]
          have h2 := bfsProcess_inv node node.successors _ h1
          rw [hp] at h2
          exact h2
        | none =>
          simp only [] at hl
          have h2 := bfsProcess_inv node node.successors _ h1
          rw [hp] at h2
          exact ih st2 out h2 hl

theorem ucsLoop_inv : ∀ (fuel : Nat) (st : PqSolver)
    (out : PqSolver × Option Board), InvP st → ucsLoop fuel st = some out →
    InvP out.1 := by
  intro fuel
  induction fuel with
  | zero => intro st out h hl; exact absurd hl (by simp [ucsLoop])
  | succ g ih =>
    intro st out h hl
    simp only [ucsLoop] at hl
    cases hp : pqPop st.frontier with
    | none =>
      rw [hp] at hl
      simp only [Option.some.injEq] at hl
      rw [← hl]
      exact h
    | some m =>
      obtain ⟨e, q'⟩ := m
      rw [hp] at hl
      simp only [] at hl
      have h1 := pop_step_invP st e q' hp h
      by_cases hg : e.1 = GOAL_STATE
      · rw [if_pos hg] at hl
        simp only [Option.some.injEq] at hl
        rw [← hl]
        exact h1
      · rw [if_neg hg] at hl
        exact ih _ out (ucsProcess_inv e.1 e.1.successors _ h1) hl

theorem greedyLoop_inv (heur : String) : ∀ (fuel : Nat) (st : PqSolver)
    (out : PqSolver × Option Board), InvP st →
    greedyLoop heur fuel st = some out → InvP out.1 := by
  intro fuel
  induction fuel with
  | zero => intro st out h hl; exact absurd hl (by simp [greedyLoop])
  | succ g ih =>
    intro st out h hl
    simp only [greedyLoop] at hl
    cases hp : pqPop st.frontier with
    | none =>
      rw [hp] at hl
      simp only [Option.some.injEq] at hl
      rw [← hl]
      exact h
    | some m =>
      obtain ⟨e, q'⟩ := m
      rw [hp] at hl
      simp only [] at hl
      have h1 := pop_step_invP st e q' hp h
      by_cases hg : e.1 = GOAL_STATE
      · rw [if_pos hg] at hl
        simp only [Option.some.injEq] at hl
        rw [← hl]
        exact h1
      · rw [if_neg hg] at hl
        cases hgp : greedyProcess heur (PqSolver.mk st.parents q'
            (insertSet st.explored e.1) st.frontier_count
            (st.expanded_count + 1)) e.1 e.1.successors with
        | none => rw [hgp] at hl; exact absurd hl (by simp)
        | some st2 =>
          rw [hgp] at hl
          exact ih st2 out
            (greedyProcess_inv heur e.1 e.1.successors _ st2 h1 hgp) hl

theorem astarLoop_inv (heur : String) : ∀ (fuel : Nat) (st : PqSolver)
    (out : PqSolver × Option Board), InvP st →
    astarLoop heur fuel st = some out → InvP out.1 := by
  intro fuel
  induction fuel with
  | zero => intro st out h hl; exact absurd hl (by simp [astarLoop])
  | succ g ih =>
    intro st out h hl
    simp only [astarLoop] at hl
    cases hp : pqPop st.frontier with
    | none =>
      rw [hp] at hl
      simp only [Option.some.injEq] at hl
      rw [← hl]
      exact h
    | some m =>
      obtain ⟨e, q'⟩ := m
      rw [hp] at hl
      simp only [] at hl
      have h1 := pop_step_invP st e q' hp h
      by_cases hg : e.1 = GOAL_STATE
      · rw [if_pos hg] at hl
        simp only [Option.some.injEq] at hl
        rw [← hl]
        exact h1
      · rw [if_neg hg] at hl
        cases hgp : astarProcess heur (PqSolver.mk st.parents q'
            (insertSet st.explored e.1) st.frontier_count
            (st.expanded_count + 1)) e.1 e.1.successors with
        | none => rw [hgp] at hl; exact absurd hl (by simp)
        | some st2 =>
          rw [hgp] at hl
          exact ih st2 out
            (astarProcess_inv heur e.1 e.1.successors _ st2 h1 hgp) hl

theorem get_results_dict_counters (ps : Parents) (fc ec : Nat)
    (s : Option Board) :
    (get_results_dict ps fc ec s).frontier_count = fc ∧
    (get_results_dict ps fc ec s).expanded_count = ec := by
  cases s <;> exact ⟨rfl, rfl⟩

theorem bfsSolve_counters_le (fuel : Nat) (start : Board) (r : SearchResult)
    (h : bfsSolve fuel start = some r) :
    r.expanded_count ≤ r.frontier_count := by
  unfold bfsSolve at h
  by_cases hg : start = GOAL_STATE
  · rw [if_pos hg] at h
    simp only [Option.some.injEq] at h
    have hc := get_results_dict_counters (bfsInit start).parents
      (bfsInit start).frontier_count (bfsInit start).expanded_count (some start)
    have h1 : (bfsInit start).frontier_count = 1 := rfl
    have h2 : (bfsInit start).expanded_count = 0 := rfl
    rw [← h]
    omega
  · rw [if_neg hg] at h
    cases hl : bfsLoop fuel (bfsInit start) with
    | none => rw [hl] at h; exact absurd h (by simp)
    | some out =>
      obtain ⟨stf, r0⟩ := out
      rw [hl] at h
      simp only [Option.some.injEq] at h
      obtain ⟨hfn, hen, hdis, hfc, hec⟩ :=
        bfsLoop_inv fuel (bfsInit start) (stf, r0) (invB_init start) hl
      have hc := get_results_dict_counters stf.parents stf.frontier_count
        stf.expanded_count r0
      rw [← h]
      simp only [] at hfc hec
      omega

theorem ucsSolve_counters_le (fuel : Nat) (start : Board) (r : SearchResult)
    (h : ucsSolve fuel start = some r) :
    r.expanded_count ≤ r.frontier_count := by
  unfold ucsSolve at h
  by_cases hg : start = GOAL_STATE
  · rw [if_pos hg] at h
    simp only [Option.some.injEq] at h
    have hc := get_results_dict_counters (pqInit start).parents
      (pqInit start).frontier_count (pqInit start).expanded_count (some start)
    have h1 : (pqInit start).frontier_count = 1 := rfl
    have h2 : (pqInit start).expanded_count = 0 := rfl
    rw [← h]
    omega
  · rw [if_neg hg] at h
    cases hl : ucsLoop fuel (pqInit start) with
    | none => rw [hl] at h; exact absurd h (by simp)
    | some out =>
      obtain ⟨stf, r0⟩ := out
      rw [hl] at h
      simp only [Option.some.injEq] at h
      obtain ⟨hfn, hen, hdis, hfc, hec⟩ :=
        ucsLoop_inv fuel (pqInit start) (stf, r0) (invP_init start) hl
      have hc := get_results_dict_counters stf.parents stf.frontier_count
        stf.expanded_count r0
      rw [← h]
      simp only [] at hfc hec
      omega

theorem greedySolve_counters_le (heur : String) (fuel : Nat) (start : Board)
    (r : SearchResult) (h : greedySolve fuel start heur = some r) :
    r.expanded_count ≤ r.frontier_count := by
  unfold greedySolve at h
  by_cases hg : start = GOAL_STATE
  · rw [if_pos hg] at h
    simp only [Option.some.injEq] at h
    have hc := get_results_dict_counters (pqInit start).parents
      (pqInit start).frontier_count (pqInit start).expanded_count (some start)
    have h1 : (pqInit start).frontier_count = 1 := rfl
    have h2 : (pqInit start).expanded_count = 0 := rfl
    rw [← h]
    omega
  · rw [if_neg hg] at h
    cases hl : greedyLoop heur fuel (pqInit start) with
    | none => rw [hl] at h; exact absurd h (by simp)
    | some out =>
      obtain ⟨stf, r0⟩ := out
      rw [hl] at h
      simp only [Option.some.injEq] at h
      obtain ⟨hfn, hen, hdis, hfc, hec⟩ :=
        greedyLoop_inv heur fuel (pqInit start) (stf, r0) (invP_init start) hl
      have hc := get_results_dict_counters stf.parents stf.frontier_count
        stf.expanded_count r0
      rw [← h]
      simp only [] at hfc hec
      omega

theorem astarSolve_counters_le (heur : String) (fuel : Nat) (start : Board)
    (r : SearchResult) (h : astarSolve fuel start heur = some r) :
    r.expanded_count ≤ r.frontier_count := by
  unfold astarSolve at h
  by_cases hg : start = GOAL_STATE
  · rw [if_pos hg] at h
    simp only [Option.some.injEq] at h
    have hc := get_results_dict_counters (pqInit start).parents
      (pqInit start).frontier_count (pqInit start).expanded_count (some start)
    have h1 : (pqInit start).frontier_count = 1 := rfl
    have h2 : (pqInit start).expanded_count = 0 := rfl
    rw [← h]
    omega
  · rw [if_neg hg] at h
    cases hl : astarLoop heur fuel (pqInit start) with
    | none => rw [hl] at h; exact absurd h (by simp)
    | some out =>
      obtain ⟨stf, r0⟩ := out
      rw [hl] at h
      simp only [Option.some.injEq] at h
      obtain ⟨hfn, hen, hdis, hfc, hec⟩ :=
        astarLoop_inv heur fuel (pqInit start) (stf, r0) (invP_init start) hl
      have hc := get_results_dict_counters stf.parents stf.frontier_count
        stf.expanded_count r0
      rw [← h]
      simp only [] at hfc hec
      omega

/-- C8: for every strategy and start state, the bookkeeping invariant
`Inv` holds initially and is preserved by every loop iteration, so at
every point during `solve` and in the returned result
`frontier_count >= expanded_count` (both are `Nat`, hence non-negative).
Moreover `frontier_count` counts exactly the distinct states ever added
to the frontier: under the invariant it equals the length of the
duplicate-free list `explored ++ frontier` - a state leaves the frontier
only into the explored set, is never added while in either, and a
priority replacement (remove + re-add in UCS/A*) leaves both membership
and `frontier_count` unchanged, as shown by the preservation lemmas. -/
theorem claim_C8_counters :
    (∀ (start : Board), InvB (bfsInit start)) ∧
    (∀ (start : Board), InvP (pqInit start)) ∧
    (∀ (fuel : Nat) (st : BfsSolver) (out : BfsSolver × Option Board),
      InvB st → bfsLoop fuel st = some out → InvB out.1) ∧
    (∀ (fuel : Nat) (st : PqSolver) (out : PqSolver × Option Board),
      InvP st → ucsLoop fuel st = some out → InvP out.1) ∧
    (∀ (heur : String) (fuel : Nat) (st : PqSolver)
      (out : PqSolver × Option Board),
      InvP st → greedyLoop heur fuel st = some out → InvP out.1) ∧
    (∀ (heur : String) (fuel : Nat) (st : PqSolver)
      (out : PqSolver × Option Board),
      InvP st → astarLoop heur fuel st = some out → InvP out.1) ∧
    (∀ (st : BfsSolver), InvB st →
      st.expanded_count ≤ st.frontier_count ∧
      st.frontier_count = (st.explored ++ st.frontier).length ∧
      (st.explored ++ st.frontier).Nodup) ∧
    (∀ (st : PqSolver), InvP st →
      st.expanded_count ≤ st.frontier_count ∧
      st.frontier_count = (st.explored ++ pqStates st.frontier).length ∧
      (st.explored ++ pqStates st.frontier).Nodup) ∧
    (∀ (fuel : Nat) (start : Board) (r : SearchResult),
      bfsSolve fuel start = some r → r.expanded_count ≤ r.frontier_count) ∧
    (∀ (fuel : Nat) (start : Board) (r : SearchResult),
      ucsSolve fuel start = some r → r.expanded_count ≤ r.frontier_count) ∧
    (∀ (heur : String) (fuel : Nat) (start : Board) (r : SearchResult),
      greedySolve fuel start heur = some r →
      r.expanded_count ≤ r.frontier_count) ∧
    (∀ (heur : String) (fuel : Nat) (start : Board) (r : SearchResult),
      astarSolve fuel start heur = some r →
      r.expanded_count ≤ r.frontier_count) := by
  refine ⟨invB_init, invP_init, bfsLoop_inv, ucsLoop_inv, greedyLoop_inv,
    astarLoop_inv, ?_, ?_, bfsSolve_counters_le, ucsSolve_counters_le,
    greedySolve_counters_le, astarSolve_counters_le⟩
  · intro st h
    obtain ⟨hfn, hen, hdis, hfc, hec⟩ := h
    refine ⟨by omega, ?_, ?_⟩
    · rw [List.length_append]
      omega
    · rw [List.nodup_append]
      refine ⟨hen, hfn, ?_⟩
      rw [List.disjoint_right]
      intro a ha
      exact hdis a ha
  · intro st h
    obtain ⟨hfn, hen, hdis, hfc, hec⟩ := h
    refine ⟨by omega, ?_, ?_⟩
    · rw [List.length_append, length_pqStates]
      omega
    · rw [List.nodup_append]
      refine ⟨hen, hfn, ?_⟩
      rw [List.disjoint_right]
      intro a ha
      exact hdis a ha

/-- Witness for C8 at a concrete input: the exhausted search from
`loopBoard` returns counters 1/1, for which the inequality holds. -/
theorem claim_C8_witness :
    (SearchResult.mk 1 1 none none).expanded_count
      ≤ (SearchResult.mk 1 1 none none).frontier_count :=
  claim_C8_counters.2.2.2.2.2.2.2.2.1 2 loopBoard
    (SearchResult.mk 1 1 none none) (by decide)
